import Mathlib

/-!
# LRU cache of the C web server (`src/cache.c`)

A shallow embedding of the cache engine: the doubly linked recency list
(`dllist_insert_head`, `dllist_move_to_head`, `dllist_remove_tail`), the entry
life cycle (`alloc_entry`, `free_entry`) and the controller (`cache_create`,
`cache_put`, `cache_get`, `cache_free`).

Memory model.  Entries live in a heap of cells addressed by natural numbers.
`malloc` hands out the next address that was never used, `free` kills a cell,
and any access through `NULL` or to a dead cell is undefined behaviour, which
the embedding reports as `none`.  Allocation is taken to succeed.

Integers.  The `int` fields are integers.  In every state considered below
`cur_size` lies between `0` and `max_size`, and `cache_put` raises it by one
before it compares, so no value leaves the range of `int` as long as
`max_size` is below `INT_MAX`; wrap-around is therefore not modelled.
-/

namespace CacheC

/-! ## Data model -/

/-- A non-null address of a `struct cache_entry`; `NULL` is `Option.none`. -/
abbrev Ptr := Nat

/-- One byte of payload.  The cache only copies bytes, so their range plays no
part and they are plain numbers. -/
abbrev byte := Nat

/-- `struct cache_entry` (declared in `cache.h`), with the fields `cache.c`
uses. -/
structure cache_entry where
  path : String
  content_type : String
  content_length : Int
  content : List byte
  prev : Option Ptr
  next : Option Ptr
deriving DecidableEq, Repr

/-- The heap of entries: cell `p` is live when it holds `some e`, dead (freed)
when it holds `none`, and never allocated when `p` is past the end. -/
abbrev Heap := List (Option cache_entry)

/-- Modelled from the spec: the key index (`hashtable.h` and its
implementation are not among the sources).  Section 6 of the specification
gives its contract: create yields an empty index, put inserts or overwrites
the mapping of a key, get yields the stored reference or "not found", delete
removes the mapping of a key when present.  The records are kept as a list of
key/reference pairs with at most one record per key. -/
abbrev hashtable := List (String × Ptr)

/-- Modelled from the spec: `index_create(size_hint, destructor)` yields a new
empty index. -/
def hashtable_create (_hashsize : Int) : hashtable := []

/-- Modelled from the spec: `index_put` inserts or overwrites the mapping for
`key`. -/
def hashtable_put (ht : hashtable) (key : String) (data : Ptr) : hashtable :=
  (key, data) :: ht.filter (fun r => r.1 != key)

/-- Modelled from the spec: `index_get` yields the stored reference, or "not
found" (`NULL`). -/
def hashtable_get (ht : hashtable) (key : String) : Option Ptr :=
  ht.lookup key

/-- Modelled from the spec: `index_delete` removes the mapping for `key` if
present and does nothing otherwise. -/
def hashtable_delete (ht : hashtable) (key : String) : hashtable :=
  ht.filter (fun r => r.1 != key)

/-- `struct cache` (declared in `cache.h`), with the fields `cache.c` uses. -/
structure cache where
  index : hashtable
  head : Option Ptr
  tail : Option Ptr
  max_size : Int
  cur_size : Int
deriving DecidableEq, Repr

/-- The memory a cache operation works on: the heap of entries and the cache
record itself. -/
structure State where
  heap : Heap
  c : cache
deriving DecidableEq, Repr

/-! ## Memory access -/

/-- Read the entry at `p`; `none` when `p` is dead or was never allocated. -/
def load (h : Heap) (p : Ptr) : Option cache_entry := (h[p]?).join

/-- The value of `p->prev`. -/
def get_prev (h : Heap) (p : Ptr) : Option (Option Ptr) := (load h p).map (fun e => e.prev)

/-- The value of `p->next`. -/
def get_next (h : Heap) (p : Ptr) : Option (Option Ptr) := (load h p).map (fun e => e.next)

/-- The assignment `p->prev = v`. -/
def set_prev (h : Heap) (p : Ptr) (v : Option Ptr) : Option Heap :=
  (load h p).map (fun e => h.set p (some { e with prev := v }))

/-- The assignment `p->next = v`. -/
def set_next (h : Heap) (p : Ptr) (v : Option Ptr) : Option Heap :=
  (load h p).map (fun e => h.set p (some { e with next := v }))

/-! ## Entry life cycle -/

/-- `alloc_entry`: a fresh cell holding copies of the path, the content type
and the first `content_length` bytes of the buffer, with both links `NULL`.
Returns the address of the new entry and the extended heap.  `content` lists
the bytes of the caller's buffer, which is expected to hold `content_length`
of them; `memcpy` past the end of the buffer is outside the model. -/
def alloc_entry (h : Heap) (path content_type : String) (content : List byte)
    (content_length : Int) : Ptr × Heap :=
  (h.length,
   h ++ [some { path := path
                content_type := content_type
                content_length := content_length
                content := content.take content_length.toNat
                prev := none
                next := none }])

/-- `free_entry`: releases the entry's buffers and the entry itself.  Freeing
a dead cell is undefined. -/
def free_entry (h : Heap) (entry : Ptr) : Option Heap :=
  (load h entry).map (fun _ => h.set entry none)

/-! ## Recency list -/

/-- `dllist_insert_head`. -/
def dllist_insert_head (s : State) (ce : Ptr) : Option State :=
  match s.c.head with
  | none => do
    -- cache->head = cache->tail = ce;
    let c1 : cache := { s.c with head := some ce, tail := some ce }
    -- ce->prev = ce->next = NULL;
    let h1 ← set_next s.heap ce none
    let h2 ← set_prev h1 ce none
    pure { heap := h2, c := c1 }
  | some hd => do
    -- cache->head->prev = ce;
    let h1 ← set_prev s.heap hd (some ce)
    -- ce->next = cache->head;
    let h2 ← set_next h1 ce (some hd)
    -- ce->prev = NULL;
    let h3 ← set_prev h2 ce none
    -- cache->head = ce;
    pure { heap := h3, c := { s.c with head := some ce } }

/-- The unlinking half of `dllist_move_to_head` (the inner `if`/`else`). -/
def dllist_unlink (s : State) (ce : Ptr) : Option State :=
  if s.c.tail = some ce then do
    -- cache->tail = ce->prev;
    let p ← get_prev s.heap ce
    -- cache->tail->next = NULL;
    let t ← p
    let h1 ← set_next s.heap t none
    pure { heap := h1, c := { s.c with tail := p } }
  else do
    -- ce->prev->next = ce->next;
    let p ← get_prev s.heap ce
    let n ← get_next s.heap ce
    let pp ← p
    let h1 ← set_next s.heap pp n
    -- ce->next->prev = ce->prev;
    let n1 ← get_next h1 ce
    let p1 ← get_prev h1 ce
    let nn ← n1
    let h2 ← set_prev h1 nn p1
    pure { heap := h2, c := s.c }

/-- `dllist_move_to_head`. -/
def dllist_move_to_head (s : State) (ce : Ptr) : Option State :=
  if s.c.head = some ce then
    some s
  else do
    let s1 ← dllist_unlink s ce
    -- ce->next = cache->head;
    let h1 ← set_next s1.heap ce s1.c.head
    -- cache->head->prev = ce;
    let hd ← s1.c.head
    let h2 ← set_prev h1 hd (some ce)
    -- ce->prev = NULL;
    let h3 ← set_prev h2 ce none
    -- cache->head = ce;
    pure { heap := h3, c := { s1.c with head := some ce } }

/-- `dllist_remove_tail`: returns the old tail and the new state. -/
def dllist_remove_tail (s : State) : Option (Ptr × State) := do
  -- struct cache_entry *oldtail = cache->tail;
  let oldtail ← s.c.tail
  -- cache->tail = oldtail->prev;
  let p ← get_prev s.heap oldtail
  -- cache->tail->next = NULL;
  let t ← p
  let h1 ← set_next s.heap t none
  -- cache->cur_size--;
  pure (oldtail, { heap := h1, c := { s.c with tail := p, cur_size := s.c.cur_size - 1 } })

/-! ## Cache controller -/

/-- The record `cache_new` that the body of `cache_create` fills in. -/
def cache_create_new (max_size hashsize : Int) : cache :=
  { index := hashtable_create hashsize
    head := none
    tail := none
    max_size := max_size
    cur_size := 0 }

/-- `cache_create`: the body builds `cache_new` and then reaches the closing
brace; there is no `return` statement, so the call yields no value. -/
def cache_create (max_size hashsize : Int) : Option cache :=
  let _cache_new := cache_create_new max_size hashsize
  none

/-- `cache_put`. -/
def cache_put (s : State) (path content_type : String) (content : List byte)
    (content_length : Int) : Option State := do
  -- struct cache_entry *entry_new = alloc_entry(path, content_type, content, content_length);
  let (entry_new, h0) := alloc_entry s.heap path content_type content content_length
  -- dllist_insert_head(cache, entry_new);
  let s1 ← dllist_insert_head { heap := h0, c := s.c } entry_new
  -- hashtable_put(cache->index, path, entry_new);
  let s2 : State := { s1 with c := { s1.c with index := hashtable_put s1.c.index path entry_new } }
  -- cache->cur_size++;
  let s3 : State := { s2 with c := { s2.c with cur_size := s2.c.cur_size + 1 } }
  if s3.c.cur_size > s3.c.max_size then do
    -- struct cache_entry *tail_old = dllist_remove_tail(cache);
    let (tail_old, s4) ← dllist_remove_tail s3
    -- hashtable_delete(cache->index, path);
    let s5 : State := { s4 with c := { s4.c with index := hashtable_delete s4.c.index path } }
    -- free_entry(tail_old);
    let h6 ← free_entry s5.heap tail_old
    pure { s5 with heap := h6 }
  else
    pure s3

/-- `cache_get`: the returned pointer (`none` for `NULL`) and the new state. -/
def cache_get (s : State) (path : String) : Option (Option Ptr × State) :=
  match hashtable_get s.c.index path with
  | none => some (none, s)
  | some entry_stored => do
    let s1 ← dllist_move_to_head s entry_stored
    pure (some entry_stored, s1)

/-- The `while` loop of `cache_free`, with the sequence of `free_entry` calls
made so far; it runs out of fuel (`none`) only if the walk is longer than
`fuel`. -/
def cache_free_loop : Nat → Heap → Option Ptr → List Ptr → Option (Heap × List Ptr)
  | _, h, none, freed => some (h, freed)
  | 0, _, some _, _ => none
  | fuel + 1, h, some cur_entry, freed => do
    -- struct cache_entry *next_entry = cur_entry->next;
    let next_entry ← get_next h cur_entry
    -- free_entry(cur_entry);
    let h1 ← free_entry h cur_entry
    -- cur_entry = next_entry;
    cache_free_loop fuel h1 next_entry (freed ++ [cur_entry])

/-- `cache_free`: the index is destroyed, the entries are freed walking from
`head`, then the cache record is freed.  Returns the final heap and the
addresses passed to `free_entry`, in call order. -/
def cache_free (fuel : Nat) (s : State) : Option (Heap × List Ptr) :=
  cache_free_loop fuel s.heap s.c.head []

/-! ## Running several calls -/

/-- The arguments of one `cache_put` call. -/
structure put_args where
  path : String
  content_type : String
  content : List byte
  content_length : Int
deriving DecidableEq, Repr

/-- A sequence of `cache_put` calls, left to right. -/
def cache_put_all : State → List put_args → Option State
  | s, [] => some s
  | s, a :: rest => do
    let s1 ← cache_put s a.path a.content_type a.content a.content_length
    cache_put_all s1 rest

/-- The state right after creation: no entry was ever allocated and the cache
record is the one `cache_create` builds. -/
def fresh (max_size hashsize : Int) : State :=
  { heap := [], c := cache_create_new max_size hashsize }


/-! ## Well-formed recency lists -/

/-- The cells of `L` form a doubly linked segment: the first cell's `prev` is
`prev`, every cell's `next` is its successor in `L`, every later cell's `prev`
is its predecessor in `L`, and the last cell's `next` is `nxt`. -/
def dlseg (h : Heap) : Option Ptr → List Ptr → Option Ptr → Prop
  | _, [], _ => True
  | prev, p :: rest, nxt =>
    get_prev h p = some prev ∧ get_next h p = some (rest.head?.or nxt) ∧
      dlseg h (some p) rest nxt

instance dlseg_decidable (h : Heap) : ∀ prev L nxt, Decidable (dlseg h prev L nxt)
  | _, [], _ => inferInstanceAs (Decidable True)
  | prev, p :: rest, nxt =>
    have := dlseg_decidable h (some p) rest nxt
    inferInstanceAs (Decidable (get_prev h p = some prev ∧
      get_next h p = some (rest.head?.or nxt) ∧ dlseg h (some p) rest nxt))

/-- The recency list of `s` is well formed and reads `L` from head to tail:
the entries are pairwise distinct live cells (so the list is finite and
acyclic), `head->prev` and `tail->next` are `NULL`, `next` and `prev` mirror
each other, and `head`/`tail` are the first/last element of `L` (both `NULL`
exactly when `L` is empty). -/
def dll (s : State) (L : List Ptr) : Prop :=
  L.Nodup ∧ dlseg s.heap none L none ∧ s.c.head = L.head? ∧ s.c.tail = L.getLast?

instance dll_decidable (s : State) (L : List Ptr) : Decidable (dll s L) :=
  inferInstanceAs (Decidable (_ ∧ _ ∧ _ ∧ _))

/-- The size bookkeeping agrees with the list and respects the capacity. -/
def wf (s : State) (L : List Ptr) : Prop :=
  dll s L ∧ s.c.cur_size = L.length ∧ s.c.cur_size ≤ s.c.max_size

instance wf_decidable (s : State) (L : List Ptr) : Decidable (wf s L) :=
  inferInstanceAs (Decidable (_ ∧ _ ∧ _))

/-- Every index record refers to an entry of the recency list. -/
def index_in_list (ht : hashtable) (L : List Ptr) : Prop :=
  ∀ r ∈ ht, r.2 ∈ L

instance index_in_list_decidable (ht : hashtable) (L : List Ptr) :
    Decidable (index_in_list ht L) :=
  inferInstanceAs (Decidable (∀ r ∈ ht, r.2 ∈ L))

/-- A valid cache state with recency list `L`. -/
def valid (s : State) (L : List Ptr) : Prop :=
  wf s L ∧ index_in_list s.c.index L

instance valid_decidable (s : State) (L : List Ptr) : Decidable (valid s L) :=
  inferInstanceAs (Decidable (_ ∧ _))

/-- The caller-visible part of an entry: everything but the two links. -/
def payload (e : cache_entry) : String × String × Int × List byte :=
  (e.path, e.content_type, e.content_length, e.content)

/-- The payload stored at `p`, if `p` is live. -/
def data (h : Heap) (p : Ptr) : Option (String × String × Int × List byte) :=
  (load h p).map payload


/-- Two heaps hold the same payloads at the same addresses: they differ at
most in `prev`/`next` links. -/
def same_data (h h1 : Heap) : Prop :=
  h1.length = h.length ∧ ∀ q, data h1 q = data h q


/-- Sample calls. -/
def put_a : put_args := ⟨"a", "text/plain", [104, 105], 2⟩

def put_b : put_args := ⟨"b", "text/html", [60, 112, 62], 3⟩

def put_c : put_args := ⟨"c", "image/png", [137], 1⟩

/-- A cache of capacity `max_size` that holds the entries for "a" (address 0,
least recently used) and "b" (address 1, most recently used). -/
def sample_state (max_size : Int) : State :=
  { heap := [some ⟨"a", "text/plain", 2, [104, 105], some 1, none⟩,
             some ⟨"b", "text/html", 3, [60, 112, 62], none, some 0⟩]
    c := { index := [("b", 1), ("a", 0)]
           head := some 1
           tail := some 0
           max_size := max_size
           cur_size := 2 } }

/-- A cache of capacity 1 that holds the single entry for "a" at address 0. -/
def one_entry_state : State :=
  { heap := [some ⟨"a", "text/plain", 2, [104, 105], none, none⟩]
    c := { index := [("a", 0)]
           head := some 0
           tail := some 0
           max_size := 1
           cur_size := 1 } }

/-! ## The two halves of `cache_put` and the walk along `next` -/

/-- The statements of `cache_put` before its `if`: allocate, insert at the
head, register in the index, `cache->cur_size++`.  The result is the state in
which `cur_size > max_size` is tested. -/
def cache_put_insert (s : State) (path content_type : String) (content : List byte)
    (content_length : Int) : Option State := do
  let (entry_new, h0) := alloc_entry s.heap path content_type content content_length
  let s1 ← dllist_insert_head { heap := h0, c := s.c } entry_new
  let s2 : State := { s1 with c := { s1.c with index := hashtable_put s1.c.index path entry_new } }
  pure { s2 with c := { s2.c with cur_size := s2.c.cur_size + 1 } }

/-- The body of the `if` of `cache_put`: remove the tail, delete `path` from
the index, free the old tail. -/
def cache_put_evict (s3 : State) (path : String) : Option State := do
  let (tail_old, s4) ← dllist_remove_tail s3
  let s5 : State := { s4 with c := { s4.c with index := hashtable_delete s4.c.index path } }
  let h6 ← free_entry s5.heap tail_old
  pure { s5 with heap := h6 }

/-- The entries met walking from `cur` along `next` until `NULL`, in order;
`none` when a dead cell is met or the walk is longer than `fuel`. -/
def entries_from : Nat → Heap → Option Ptr → Option (List Ptr)
  | _, _, none => some []
  | 0, _, some _ => none
  | fuel + 1, h, some cur =>
    match get_next h cur with
    | none => none
    | some nxt =>
      match entries_from fuel h nxt with
      | none => none
      | some rest => some (cur :: rest)

/-- The number of entries of the recency list, counted from `head` following
`next`.  A walk over pairwise distinct cells cannot be longer than the heap,
so the heap's size serves as fuel. -/
def list_count (s : State) : Option Nat :=
  (entries_from s.heap.length s.heap s.c.head).map List.length


/-! ## Facts about memory access -/

theorem load_set_self {h : Heap} {p : Ptr} {e : cache_entry} {x : Option cache_entry}
    (hl : load h p = some e) : load (h.set p x) p = x := by
  have hp : p < h.length := by
    by_contra hc
    have hn : h[p]? = none := List.getElem?_eq_none (Nat.le_of_not_gt hc)
    simp [load, hn] at hl
  simp [load, List.getElem?_set_self hp]

theorem load_set_ne {h : Heap} {p q : Ptr} {x : Option cache_entry} (hne : q ≠ p) :
    load (h.set p x) q = load h q := by
  have hpq : p ≠ q := fun hc => hne hc.symm
  simp [load, List.getElem?_set_ne hpq]

theorem load_lt {h : Heap} {p : Ptr} {e : cache_entry} (hl : load h p = some e) :
    p < h.length := by
  by_contra hc
  have hn : h[p]? = none := List.getElem?_eq_none (Nat.le_of_not_gt hc)
  simp [load, hn] at hl

theorem load_append_of_live {h : Heap} {p : Ptr} {e : cache_entry} (x : Option cache_entry)
    (hl : load h p = some e) : load (h ++ [x]) p = some e := by
  have hp := load_lt hl
  simpa [load, List.getElem?_append_left hp] using hl

theorem load_append_length (h : Heap) (x : Option cache_entry) :
    load (h ++ [x]) h.length = x := by
  simp [load]

theorem load_length (h : Heap) : load h h.length = none := by
  simp [load]

theorem get_prev_of_load {h : Heap} {p : Ptr} {e : cache_entry} (hl : load h p = some e) :
    get_prev h p = some e.prev := by simp [get_prev, hl]

theorem get_next_of_load {h : Heap} {p : Ptr} {e : cache_entry} (hl : load h p = some e) :
    get_next h p = some e.next := by simp [get_next, hl]

theorem load_of_get_prev {h : Heap} {p : Ptr} {v : Option Ptr} (hg : get_prev h p = some v) :
    ∃ e, load h p = some e ∧ e.prev = v := by
  simpa [get_prev] using hg

theorem load_of_get_next {h : Heap} {p : Ptr} {v : Option Ptr} (hg : get_next h p = some v) :
    ∃ e, load h p = some e ∧ e.next = v := by
  simpa [get_next] using hg

/-- What `p->prev = v` does to the heap, cell by cell. -/
theorem set_prev_spec {h : Heap} {p : Ptr} {e : cache_entry} (v : Option Ptr)
    (hl : load h p = some e) :
    ∃ h1, set_prev h p v = some h1 ∧ h1.length = h.length ∧
      load h1 p = some { e with prev := v } ∧ (∀ q, q ≠ p → load h1 q = load h q) := by
  refine ⟨h.set p (some { e with prev := v }), by simp [set_prev, hl], by simp,
    load_set_self hl, fun q hq => load_set_ne hq⟩

/-- What `p->next = v` does to the heap, cell by cell. -/
theorem set_next_spec {h : Heap} {p : Ptr} {e : cache_entry} (v : Option Ptr)
    (hl : load h p = some e) :
    ∃ h1, set_next h p v = some h1 ∧ h1.length = h.length ∧
      load h1 p = some { e with next := v } ∧ (∀ q, q ≠ p → load h1 q = load h q) := by
  refine ⟨h.set p (some { e with next := v }), by simp [set_next, hl], by simp,
    load_set_self hl, fun q hq => load_set_ne hq⟩

theorem same_data_refl (h : Heap) : same_data h h := ⟨rfl, fun _ => rfl⟩

theorem same_data_trans {h h1 h2 : Heap} (a : same_data h h1) (b : same_data h1 h2) :
    same_data h h2 :=
  ⟨b.1.trans a.1, fun q => (b.2 q).trans (a.2 q)⟩

/-- The link-level summary of `p->prev = v`. -/
theorem set_prev_links {h : Heap} {p : Ptr} {e : cache_entry} (v : Option Ptr)
    (hl : load h p = some e) :
    ∃ h1, set_prev h p v = some h1 ∧ same_data h h1 ∧
      (∀ q, get_prev h1 q = if q = p then some v else get_prev h q) ∧
      (∀ q, get_next h1 q = get_next h q) := by
  obtain ⟨h1, hs, hlen, hp, hq⟩ := set_prev_spec v hl
  refine ⟨h1, hs, ⟨hlen, fun q => ?_⟩, fun q => ?_, fun q => ?_⟩
  · by_cases hqp : q = p
    · subst hqp; simp [data, hp, hl, payload]
    · simp [data, hq q hqp]
  · by_cases hqp : q = p
    · subst hqp; simp [get_prev, hp]
    · simp [get_prev, hq q hqp, hqp]
  · by_cases hqp : q = p
    · subst hqp; simp [get_next, hp, hl]
    · simp [get_next, hq q hqp]

/-- The link-level summary of `p->next = v`. -/
theorem set_next_links {h : Heap} {p : Ptr} {e : cache_entry} (v : Option Ptr)
    (hl : load h p = some e) :
    ∃ h1, set_next h p v = some h1 ∧ same_data h h1 ∧
      (∀ q, get_next h1 q = if q = p then some v else get_next h q) ∧
      (∀ q, get_prev h1 q = get_prev h q) := by
  obtain ⟨h1, hs, hlen, hp, hq⟩ := set_next_spec v hl
  refine ⟨h1, hs, ⟨hlen, fun q => ?_⟩, fun q => ?_, fun q => ?_⟩
  · by_cases hqp : q = p
    · subst hqp; simp [data, hp, hl, payload]
    · simp [data, hq q hqp]
  · by_cases hqp : q = p
    · subst hqp; simp [get_next, hp]
    · simp [get_next, hq q hqp, hqp]
  · by_cases hqp : q = p
    · subst hqp; simp [get_prev, hp, hl]
    · simp [get_prev, hq q hqp]

theorem live_of_data {h : Heap} {p : Ptr} {d : String × String × Int × List byte}
    (hd : data h p = some d) : ∃ e, load h p = some e := by
  cases hl : load h p with
  | none => simp [data, hl] at hd
  | some e => exact ⟨e, rfl⟩

theorem live_of_same_data {h h1 : Heap} {p : Ptr} {e : cache_entry} (hs : same_data h h1)
    (hl : load h p = some e) : ∃ e1, load h1 p = some e1 ∧ payload e1 = payload e := by
  have hd := hs.2 p
  cases hl1 : load h1 p with
  | none => simp [data, hl, hl1] at hd
  | some e1 => exact ⟨e1, rfl, by simpa [data, hl, hl1] using hd⟩


/-! ## Facts about doubly linked segments -/

theorem dlseg_congr {h h1 : Heap} : ∀ (L : List Ptr) (prev nxt : Option Ptr),
    (∀ p ∈ L, get_prev h1 p = get_prev h p ∧ get_next h1 p = get_next h p) →
    dlseg h prev L nxt → dlseg h1 prev L nxt
  | [], _, _, _, _ => trivial
  | p :: rest, prev, nxt, hsame, hd => by
    obtain ⟨hp, hn, hr⟩ := hd
    have hp1 := hsame p (List.mem_cons_self p rest)
    refine ⟨hp1.1.trans hp, hp1.2.trans hn, ?_⟩
    exact dlseg_congr rest (some p) nxt (fun q hq => hsame q (List.mem_cons_of_mem p hq)) hr

theorem dlseg_live {h : Heap} : ∀ (L : List Ptr) (prev nxt : Option Ptr),
    dlseg h prev L nxt → ∀ p ∈ L, ∃ e, load h p = some e
  | [], _, _, _, p, hp => by simp at hp
  | a :: rest, prev, nxt, hd, p, hp => by
    obtain ⟨ha, _, hr⟩ := hd
    rcases List.mem_cons.mp hp with rfl | hin
    · obtain ⟨e, he, _⟩ := load_of_get_prev ha
      exact ⟨e, he⟩
    · exact dlseg_live rest (some a) nxt hr p hin

/-- Changing only the first cell's `prev` changes the segment's left
neighbour. -/
theorem dlseg_set_head_prev {h h1 : Heap} {a : Ptr} {L : List Ptr} {prev nxt v : Option Ptr}
    (hd : dlseg h prev (a :: L) nxt) (ha : a ∉ L)
    (hp : ∀ q, get_prev h1 q = if q = a then some v else get_prev h q)
    (hn : ∀ q, get_next h1 q = get_next h q) :
    dlseg h1 v (a :: L) nxt := by
  obtain ⟨_, hnx, hr⟩ := hd
  refine ⟨by simp [hp a], (hn a).trans hnx, ?_⟩
  refine dlseg_congr L (some a) nxt (fun q hq => ⟨?_, hn q⟩) hr
  have hqa : q ≠ a := fun hc => ha (hc ▸ hq)
  simp [hp q, hqa]

/-- Changing only the last cell's `next` changes the segment's right
neighbour. -/
theorem dlseg_set_last_next {h h1 : Heap} {a : Ptr} {v : Option Ptr} :
    ∀ (L : List Ptr) (prev nxt : Option Ptr), dlseg h prev L nxt → L.getLast? = some a →
    L.Nodup →
    (∀ q, get_next h1 q = if q = a then some v else get_next h q) →
    (∀ q, get_prev h1 q = get_prev h q) →
    dlseg h1 prev L v
  | [], _, _, _, hl, _, _, _ => by simp at hl
  | [p], prev, nxt, hd, hl, _, hn, hp => by
    have hpa : p = a := by simpa using hl
    subst hpa
    exact ⟨(hp p).trans hd.1, by simp [hn p], trivial⟩
  | p :: q :: rest, prev, nxt, hd, hl, hnd, hn, hp => by
    obtain ⟨hpp, hpn, hr⟩ := hd
    have hl1 : (q :: rest).getLast? = some a := by simpa using hl
    have hmem : a ∈ q :: rest := List.mem_of_getLast?_eq_some hl1
    have hnd1 := List.nodup_cons.mp hnd
    have hpa : p ≠ a := fun hc => hnd1.1 (hc ▸ hmem)
    refine ⟨(hp p).trans hpp, ?_, dlseg_set_last_next (q :: rest) (some p) nxt hr hl1 hnd1.2 hn hp⟩
    have : get_next h1 p = get_next h p := by simp [hn p, hpa]
    rw [this, hpn]; simp

theorem getLast?_cons_or (a : Ptr) (A : List Ptr) (prev : Option Ptr) :
    (a :: A).getLast?.or prev = A.getLast?.or (some a) := by
  cases A with
  | nil => simp
  | cons b B =>
    rw [List.getLast?_cons_cons]
    cases hB : (b :: B).getLast? with
    | none => simp at hB
    | some x => simp

/-- A segment splits at any point into two segments that name each other as
neighbours. -/
theorem dlseg_append {h : Heap} : ∀ (A B : List Ptr) (prev nxt : Option Ptr),
    dlseg h prev (A ++ B) nxt ↔
      dlseg h prev A (B.head?.or nxt) ∧ dlseg h (A.getLast?.or prev) B nxt
  | [], B, prev, nxt => by simp [dlseg]
  | a :: A, B, prev, nxt => by
    have ih := dlseg_append (h := h) A B (some a) nxt
    have e1 : (A ++ B).head?.or nxt = A.head?.or (B.head?.or nxt) := by
      cases A <;> simp
    rw [getLast?_cons_or]
    show (get_prev h a = some prev ∧ get_next h a = some ((A ++ B).head?.or nxt) ∧
        dlseg h (some a) (A ++ B) nxt) ↔
      (get_prev h a = some prev ∧ get_next h a = some (A.head?.or (B.head?.or nxt)) ∧
        dlseg h (some a) A (B.head?.or nxt)) ∧ dlseg h (A.getLast?.or (some a)) B nxt
    rw [e1, ih]
    tauto


/-! ## The recency-list operations on well-formed lists -/

/-- `dllist_insert_head` of a live entry outside the list puts it in front. -/
theorem dllist_insert_head_spec {s : State} {L : List Ptr} {ce : Ptr} {e : cache_entry}
    (hd : dll s L) (hl : load s.heap ce = some e) (hce : ce ∉ L) :
    ∃ s1, dllist_insert_head s ce = some s1 ∧ dll s1 (ce :: L) ∧
      same_data s.heap s1.heap ∧ s1.c.index = s.c.index ∧
      s1.c.max_size = s.c.max_size ∧ s1.c.cur_size = s.c.cur_size := by
  obtain ⟨hnd, hseg, hhead, htail⟩ := hd
  cases L with
  | nil =>
    have hh : s.c.head = none := by simpa using hhead
    obtain ⟨h1, hs1, hsd1, hn1, hp1⟩ := set_next_links none hl
    obtain ⟨e1, hl1, _⟩ := live_of_same_data hsd1 hl
    obtain ⟨h2, hs2, hsd2, hp2, hn2⟩ := set_prev_links none hl1
    refine ⟨{ heap := h2, c := { s.c with head := some ce, tail := some ce } }, ?_, ?_,
      same_data_trans hsd1 hsd2, rfl, rfl, rfl⟩
    · simp [dllist_insert_head, hh, hs1, hs2]
    · refine ⟨by simp, ⟨?_, ?_, trivial⟩, by simp, by simp⟩
      · simp [hp2 ce]
      · show get_next h2 ce = some none
        rw [hn2 ce, hn1 ce]; simp
  | cons a R =>
    have hh : s.c.head = some a := by simpa using hhead
    have hane : ce ≠ a := fun hc => hce (hc ▸ List.mem_cons_self a R)
    obtain ⟨ea, hla⟩ := dlseg_live _ _ _ hseg a (List.mem_cons_self a R)
    obtain ⟨h1, hs1, hsd1, hp1, hn1⟩ := set_prev_links (some ce) hla
    obtain ⟨e1, hl1, _⟩ := live_of_same_data hsd1 hl
    obtain ⟨h2, hs2, hsd2, hn2, hp2⟩ := set_next_links (some a) hl1
    obtain ⟨e2, hl2, _⟩ := live_of_same_data hsd2 hl1
    obtain ⟨h3, hs3, hsd3, hp3, hn3⟩ := set_prev_links none hl2
    refine ⟨{ heap := h3, c := { s.c with head := some ce } }, ?_, ?_,
      same_data_trans hsd1 (same_data_trans hsd2 hsd3), rfl, rfl, rfl⟩
    · simp [dllist_insert_head, hh, hs1, hs2, hs3]
    · have hseg1 : dlseg h1 (some ce) (a :: R) none :=
        dlseg_set_head_prev hseg (List.nodup_cons.mp hnd).1 hp1 hn1
      have hseg3 : dlseg h3 (some ce) (a :: R) none := by
        refine dlseg_congr _ _ _ (fun q hq => ?_) hseg1
        have hq : q ≠ ce := fun hc => hce (hc ▸ hq)
        refine ⟨?_, ?_⟩
        · rw [hp3 q, hp2 q]; simp [hq]
        · rw [hn3 q, hn2 q]; simp [hq]
      refine ⟨List.nodup_cons.mpr ⟨hce, hnd⟩, ⟨?_, ?_, hseg3⟩, by simp, ?_⟩
      · simp [hp3 ce]
      · show get_next h3 ce = some ((a :: R).head?.or none)
        rw [hn3 ce, hn2 ce]; simp
      · show s.c.tail = (ce :: a :: R).getLast?
        rw [List.getLast?_cons_cons]; exact htail

/-- `dllist_remove_tail` on a list of at least two entries drops the last
one and hands it back, still live. -/
theorem dllist_remove_tail_spec {s : State} {L : List Ptr} (hd : dll s L)
    (h2 : 2 ≤ L.length) :
    ∃ t s1, dllist_remove_tail s = some (t, s1) ∧ L.getLast? = some t ∧
      dll s1 L.dropLast ∧ same_data s.heap s1.heap ∧ s1.c.index = s.c.index ∧
      s1.c.head = s.c.head ∧ s1.c.max_size = s.c.max_size ∧
      s1.c.cur_size = s.c.cur_size - 1 := by
  obtain ⟨hnd, hseg, hhead, htail⟩ := hd
  -- split `L` as `A ++ [a] ++ [t]`
  have hne : L ≠ [] := by intro hc; simp [hc] at h2
  obtain ⟨t, B, hB⟩ : ∃ t B, L = B ++ [t] :=
    ⟨L.getLast hne, L.dropLast, (List.dropLast_concat_getLast hne).symm⟩
  have hBne : B ≠ [] := by intro hc; simp [hB, hc] at h2
  obtain ⟨a, A, hA⟩ : ∃ a A, B = A ++ [a] :=
    ⟨B.getLast hBne, B.dropLast, (List.dropLast_concat_getLast hBne).symm⟩
  subst hB
  have hBlast : B.getLast? = some a := by rw [hA]; exact List.getLast?_concat A
  have hsplit := (dlseg_append B [t] none none).mp hseg
  obtain ⟨hsegB, hsegt⟩ := hsplit
  have htprev : get_prev s.heap t = some (some a) := by
    have := hsegt.1
    simpa [hBlast] using this
  have hnd' := List.nodup_append.mp hnd
  have htl : s.c.tail = some t := by rw [htail]; exact List.getLast?_concat B
  have haB : a ∈ B := List.mem_of_getLast?_eq_some hBlast
  obtain ⟨ea, hla⟩ := dlseg_live _ _ _ hsegB a haB
  obtain ⟨h1, hs1, hsd1, hn1, hp1⟩ := set_next_links none hla
  refine ⟨t, { heap := h1, c := { s.c with tail := some a, cur_size := s.c.cur_size - 1 } },
    ?_, List.getLast?_concat B, ?_, hsd1, rfl, rfl, rfl, rfl⟩
  · simp [dllist_remove_tail, htl, htprev, hs1]
  · rw [List.dropLast_concat]
    refine ⟨hnd'.1, ?_, ?_, ?_⟩
    · exact dlseg_set_last_next B none _ hsegB hBlast hnd'.1 hn1 hp1
    · show s.c.head = B.head?
      rw [hhead]
      cases B with
      | nil => exact absurd rfl hBne
      | cons b B' => simp
    · exact hBlast.symm


/-- The inner `if`/`else` of `dllist_move_to_head` takes an entry that is not
the head out of the list, leaving it live. -/
theorem dllist_unlink_spec {s : State} {A B : List Ptr} {ce : Ptr}
    (hd : dll s (A ++ ce :: B)) (hA : A ≠ []) :
    ∃ s1, dllist_unlink s ce = some s1 ∧ dll s1 (A ++ B) ∧ same_data s.heap s1.heap ∧
      s1.c.index = s.c.index ∧ s1.c.head = s.c.head ∧ s1.c.max_size = s.c.max_size ∧
      s1.c.cur_size = s.c.cur_size := by
  obtain ⟨hnd, hseg, hhead, htail⟩ := hd
  obtain ⟨pa, A0, hA0⟩ : ∃ pa A0, A = A0 ++ [pa] :=
    ⟨A.getLast hA, A.dropLast, (List.dropLast_concat_getLast hA).symm⟩
  have hAlast : A.getLast? = some pa := by rw [hA0]; exact List.getLast?_concat A0
  have hpaA : pa ∈ A := List.mem_of_getLast?_eq_some hAlast
  have hnd1 := List.nodup_append.mp hnd
  have hndA : A.Nodup := hnd1.1
  have hnd2 := List.nodup_cons.mp hnd1.2.1
  have hceB : ce ∉ B := hnd2.1
  have hndB : B.Nodup := hnd2.2
  have hdisj : ∀ x, x ∈ A → x ∈ ce :: B → False := fun x hx hy => hnd1.2.2 hx hy
  have hceA : ce ∉ A := fun hc => hdisj ce hc (List.mem_cons_self ce B)
  have hAB : ∀ x, x ∈ A → x ∉ B := fun x hx hy => hdisj x hx (List.mem_cons_of_mem ce hy)
  have hpace : pa ≠ ce := fun hc => hceA (hc ▸ hpaA)
  obtain ⟨hsegA, hsegR⟩ := (dlseg_append A (ce :: B) none none).mp hseg
  have hsegA' : dlseg s.heap none A (some ce) := by simpa using hsegA
  obtain ⟨hcp, hcn, hsegB⟩ := hsegR
  have hcp' : get_prev s.heap ce = some (some pa) := by simpa [hAlast] using hcp
  obtain ⟨epa, hlpa⟩ := dlseg_live _ _ _ hsegA' pa hpaA
  have hheadA : (A ++ ce :: B).head? = A.head? := by
    cases A with
    | nil => exact absurd rfl hA
    | cons x A' => simp
  have hheadAB : (A ++ B).head? = A.head? := by
    cases A with
    | nil => exact absurd rfl hA
    | cons x A' => simp
  cases B with
  | nil =>
    have htl : s.c.tail = some ce := by rw [htail]; exact List.getLast?_concat A
    obtain ⟨h1, hs1, hsd1, hn1, hp1⟩ := set_next_links none hlpa
    refine ⟨{ heap := h1, c := { s.c with tail := some pa } }, ?_, ?_, hsd1, rfl, rfl, rfl, rfl⟩
    · simp [dllist_unlink, htl, hcp', hs1]
    · rw [List.append_nil]
      refine ⟨hndA, dlseg_set_last_next A none _ hsegA' hAlast hndA hn1 hp1, ?_, hAlast.symm⟩
      show s.c.head = A.head?
      rw [hhead, hheadA]
  | cons b B' =>
    have hbB : b ∈ b :: B' := List.mem_cons_self b B'
    have hbA : b ∉ A := fun hc => hAB b hc hbB
    have hbce : b ≠ ce := fun hc => hceB (hc ▸ hbB)
    have hpab : pa ≠ b := fun hc => hbA (hc ▸ hpaA)
    have hlastB : ∃ x, (b :: B').getLast? = some x ∧ x ∈ b :: B' := by
      cases hx : (b :: B').getLast? with
      | none => simp at hx
      | some x => exact ⟨x, rfl, List.mem_of_getLast?_eq_some hx⟩
    obtain ⟨x, hx, hxB⟩ := hlastB
    have htl : s.c.tail = some x := by
      rw [htail, List.getLast?_append, List.getLast?_cons_cons, hx]; rfl
    have htne : ¬ (s.c.tail = some ce) := by
      rw [htl]; intro hc
      exact hceB ((Option.some.inj hc) ▸ hxB)
    have hcn' : get_next s.heap ce = some (some b) := by simpa using hcn
    obtain ⟨h1, hs1, hsd1, hn1, hp1⟩ := set_next_links (some b) hlpa
    have hcn1 : get_next h1 ce = some (some b) := by
      rw [hn1 ce]; simp [hpace.symm, hcn']
    have hcp1 : get_prev h1 ce = some (some pa) := by rw [hp1 ce]; exact hcp'
    obtain ⟨eb, hlb⟩ := dlseg_live _ _ _ hsegB b hbB
    obtain ⟨eb1, hlb1, _⟩ := live_of_same_data hsd1 hlb
    obtain ⟨h2, hs2, hsd2, hp2, hn2⟩ := set_prev_links (some pa) hlb1
    refine ⟨{ heap := h2, c := s.c }, ?_, ?_, same_data_trans hsd1 hsd2, rfl, rfl, rfl, rfl⟩
    · simp [dllist_unlink, htne, hcp', hcn', hs1, hcn1, hcp1, hs2]
    · have hndAB : (A ++ b :: B').Nodup :=
        List.nodup_append.mpr ⟨hndA, hndB, fun y hy hy' => hAB y hy hy'⟩
      refine ⟨hndAB, ?_, ?_, ?_⟩
      · refine (dlseg_append A (b :: B') none none).mpr ⟨?_, ?_⟩
        · have hA1 : dlseg h1 none A (some b) :=
            dlseg_set_last_next A none _ hsegA' hAlast hndA hn1 hp1
          have hA2 : dlseg h2 none A (some b) := by
            refine dlseg_congr _ _ _ (fun q hq => ⟨?_, hn2 q⟩) hA1
            have hqb : q ≠ b := fun hc => hbA (hc ▸ hq)
            rw [hp2 q]; simp [hqb]
          simpa using hA2
        · have hB1 : dlseg h1 (some ce) (b :: B') none := by
            refine dlseg_congr _ _ _ (fun q hq => ⟨hp1 q, ?_⟩) hsegB
            have hqpa : q ≠ pa := fun hc => hAB pa hpaA (hc ▸ hq)
            rw [hn1 q]; simp [hqpa]
          have hB2 : dlseg h2 (some pa) (b :: B') none :=
            dlseg_set_head_prev hB1 (List.nodup_cons.mp hndB).1 hp2 hn2
          simpa [hAlast] using hB2
      · show s.c.head = (A ++ b :: B').head?
        rw [hhead, hheadA, hheadAB]
      · show s.c.tail = (A ++ b :: B').getLast?
        rw [htail]; simp

/-- `dllist_move_to_head` of a list member moves it to the front and keeps the
order of the others. -/
theorem dllist_move_to_head_spec {s : State} {L : List Ptr} {ce : Ptr}
    (hd : dll s L) (hce : ce ∈ L) :
    ∃ s1, dllist_move_to_head s ce = some s1 ∧ dll s1 (ce :: L.erase ce) ∧
      same_data s.heap s1.heap ∧ s1.c.index = s.c.index ∧
      s1.c.max_size = s.c.max_size ∧ s1.c.cur_size = s.c.cur_size := by
  by_cases hh : s.c.head = some ce
  · refine ⟨s, by simp [dllist_move_to_head, hh], ?_, same_data_refl _, rfl, rfl, rfl⟩
    cases L with
    | nil => simp at hce
    | cons a R =>
      have : a = ce := by
        have := hd.2.2.1
        rw [hh] at this
        simpa using this.symm
      subst this
      simpa using hd
  · obtain ⟨A, B, hL⟩ := List.append_of_mem hce
    subst hL
    have hnd := hd.1
    have hnd1 := List.nodup_append.mp hnd
    have hceA : ce ∉ A := fun hc => hnd1.2.2 hc (List.mem_cons_self ce B)
    have hceB : ce ∉ B := (List.nodup_cons.mp hnd1.2.1).1
    have hA : A ≠ [] := by
      intro hc
      apply hh
      rw [hd.2.2.1, hc]; simp
    have herase : (A ++ ce :: B).erase ce = A ++ B := by
      rw [List.erase_append_right _ hceA, List.erase_cons_head]
    obtain ⟨ece, hlce⟩ := dlseg_live _ _ _ hd.2.1 ce hce
    obtain ⟨s1, hu, hd1, hsd1, hi1, hh1, hm1, hc1⟩ := dllist_unlink_spec hd hA
    obtain ⟨hnd1', hseg1, hhead1, htail1⟩ := hd1
    obtain ⟨a, A', hA'⟩ : ∃ a A', A = a :: A' := by
      cases A with
      | nil => exact absurd rfl hA
      | cons a A' => exact ⟨a, A', rfl⟩
    subst hA'
    have hs1head : s1.c.head = some a := by rw [hhead1]; simp
    have hceM : ce ∉ a :: A' ++ B := by
      intro hc
      rcases List.mem_append.mp hc with h | h
      · exact hceA h
      · exact hceB h
    have haM : a ∈ a :: A' ++ B := by simp
    have hace : a ≠ ce := fun hc => hceM (hc ▸ haM)
    obtain ⟨e1, hl1, _⟩ := live_of_same_data hsd1 hlce
    obtain ⟨h1, hs1, hsd2, hn1, hp1⟩ := set_next_links (some a) hl1
    obtain ⟨ea, hla⟩ := dlseg_live _ _ _ hseg1 a haM
    obtain ⟨ea1, hla1, _⟩ := live_of_same_data hsd2 hla
    obtain ⟨h2, hs2, hsd3, hp2, hn2⟩ := set_prev_links (some ce) hla1
    obtain ⟨e2, hl2, _⟩ := live_of_same_data hsd3 (live_of_same_data hsd2 hl1).choose_spec.1
    obtain ⟨h3, hs3, hsd4, hp3, hn3⟩ := set_prev_links none hl2
    refine ⟨{ heap := h3, c := { s1.c with head := some ce } }, ?_, ?_,
      same_data_trans hsd1 (same_data_trans hsd2 (same_data_trans hsd3 hsd4)), hi1, hm1, hc1⟩
    · simp [dllist_move_to_head, hh, hu, hs1head, hs1, hs2, hs3]
    · rw [herase]
      have hsegM1 : dlseg h1 none (a :: (A' ++ B)) none := by
        refine dlseg_congr _ _ _ (fun q hq => ⟨hp1 q, ?_⟩) hseg1
        have hq : q ≠ ce := fun hc => hceM (hc ▸ hq)
        rw [hn1 q]; simp [hq]
      have hsegM2 : dlseg h2 (some ce) (a :: (A' ++ B)) none :=
        dlseg_set_head_prev hsegM1 (List.nodup_cons.mp hnd1').1 hp2 hn2
      have hsegM3 : dlseg h3 (some ce) (a :: (A' ++ B)) none := by
        refine dlseg_congr _ _ _ (fun q hq => ⟨?_, hn3 q⟩) hsegM2
        have hq : q ≠ ce := fun hc => hceM (hc ▸ hq)
        rw [hp3 q]; simp [hq]
      refine ⟨List.nodup_cons.mpr ⟨hceM, hnd1'⟩, ⟨?_, ?_, hsegM3⟩, by simp, ?_⟩
      · simp [hp3 ce]
      · show get_next h3 ce = some ((a :: (A' ++ B)).head?.or none)
        rw [hn3 ce, hn2 ce, hn1 ce]; simp
      · show s1.c.tail = (ce :: (a :: A' ++ B)).getLast?
        rw [htail1]; simp


/-! ## The controller on well-formed states -/

theorem free_entry_spec {h : Heap} {p : Ptr} {e : cache_entry} (hl : load h p = some e) :
    ∃ h1, free_entry h p = some h1 ∧ h1.length = h.length ∧ load h1 p = none ∧
      (∀ q, q ≠ p → load h1 q = load h q) :=
  ⟨h.set p none, by simp [free_entry, hl], by simp, load_set_self hl,
    fun _ hq => load_set_ne hq⟩

/-- The list predicate only looks at the cells of the list and at `head` and
`tail`. -/
theorem dll_frame {s s1 : State} {L : List Ptr} (hd : dll s L)
    (hl : ∀ q ∈ L, load s1.heap q = load s.heap q)
    (hh : s1.c.head = s.c.head) (ht : s1.c.tail = s.c.tail) : dll s1 L := by
  obtain ⟨hnd, hseg, hhead, htail⟩ := hd
  refine ⟨hnd, dlseg_congr _ _ _ (fun q hq => ?_) hseg, hh.trans hhead, ht.trans htail⟩
  simp [get_prev, get_next, hl q hq]

theorem dll_lt {s : State} {L : List Ptr} (hd : dll s L) : ∀ q ∈ L, q < s.heap.length := by
  intro q hq
  obtain ⟨e, he⟩ := dlseg_live _ _ _ hd.2.1 q hq
  exact load_lt he

theorem data_of_load {h : Heap} {p : Ptr} {e : cache_entry} (hl : load h p = some e) :
    data h p = some (payload e) := by simp [data, hl]

theorem data_eq_of_load_eq {h h1 : Heap} {p : Ptr} (hl : load h1 p = load h p) :
    data h1 p = data h p := by simp [data, hl]

/-- What one `cache_put` does to a well-formed state of capacity at least 1:
the new entry sits at address `s.heap.length`; below capacity it is put in
front of the list, at capacity the old tail is dropped and freed as well. -/
theorem cache_put_spec {s : State} {L : List Ptr} (hw : wf s L) (hcap : 1 ≤ s.c.max_size)
    (path content_type : String) (content : List byte) (content_length : Int) :
    ∃ s1, cache_put s path content_type content content_length = some s1 ∧
      s1.c.max_size = s.c.max_size ∧ s1.heap.length = s.heap.length + 1 ∧
      data s1.heap s.heap.length
        = some (path, content_type, content_length, content.take content_length.toNat) ∧
      (s.c.cur_size < s.c.max_size →
        wf s1 (s.heap.length :: L) ∧
        s1.c.index = hashtable_put s.c.index path s.heap.length ∧
        ∀ q, q ≠ s.heap.length → data s1.heap q = data s.heap q) ∧
      (s.c.cur_size = s.c.max_size →
        ∃ t, L.getLast? = some t ∧ wf s1 (s.heap.length :: L.dropLast) ∧
          s1.c.index
            = hashtable_delete (hashtable_put s.c.index path s.heap.length) path ∧
          load s1.heap t = none ∧
          ∀ q, q ≠ s.heap.length → q ≠ t → data s1.heap q = data s.heap q) := by
  obtain ⟨hd, hsz, hle⟩ := hw
  -- allocation
  obtain ⟨e0, he0⟩ : ∃ e0 : cache_entry, (alloc_entry s.heap path content_type content
      content_length).2 = s.heap ++ [some e0] ∧ payload e0
        = (path, content_type, content_length, content.take content_length.toNat) :=
    ⟨_, rfl, rfl⟩
  have halloc : alloc_entry s.heap path content_type content content_length
      = (s.heap.length, s.heap ++ [some e0]) := by
    rw [← he0.1]; rfl
  have hpL : s.heap.length ∉ L := fun hc => Nat.lt_irrefl _ (dll_lt hd _ hc)
  have hlive0 : ∀ q, q < s.heap.length → load (s.heap ++ [some e0]) q = load s.heap q := by
    intro q hq
    simp [load, List.getElem?_append_left hq]
  have hd0 : dll { heap := s.heap ++ [some e0], c := s.c } L :=
    dll_frame hd (fun q hq => hlive0 q (dll_lt hd q hq)) rfl rfl
  have hl0 : load (s.heap ++ [some e0]) s.heap.length = some e0 := load_append_length _ _
  obtain ⟨s1, hins, hd1, hsd1, hi1', hm1', hc1'⟩ := dllist_insert_head_spec hd0 hl0 hpL
  have hi1 : s1.c.index = s.c.index := hi1'
  have hm1 : s1.c.max_size = s.c.max_size := hm1'
  have hc1 : s1.c.cur_size = s.c.cur_size := hc1'
  clear hi1' hm1' hc1'
  have hsd1' : same_data (s.heap ++ [some e0]) s1.heap := hsd1
  have hlen1 : s1.heap.length = s.heap.length + 1 := by rw [hsd1'.1]; simp
  have hdata0 : data (s.heap ++ [some e0]) s.heap.length
      = some (path, content_type, content_length, content.take content_length.toNat) := by
    rw [data_of_load hl0, he0.2]
  have hdataq : ∀ q, q ≠ s.heap.length → data (s.heap ++ [some e0]) q = data s.heap q := by
    intro q hq
    rcases Nat.lt_or_ge q s.heap.length with hlt | hge
    · exact data_eq_of_load_eq (hlive0 q hlt)
    · have hgt : s.heap.length < q := Nat.lt_of_le_of_ne hge (fun hc => hq hc.symm)
      have h1 : (s.heap ++ [some e0])[q]? = none :=
        List.getElem?_eq_none (by simp; omega)
      have h2 : s.heap[q]? = none := List.getElem?_eq_none (by omega)
      simp [data, load, h1, h2]
  by_cases hfull : s.c.cur_size < s.c.max_size
  · -- no eviction
    have hcond : ¬ (s1.c.cur_size + 1 > s1.c.max_size) := by
      rw [hc1, hm1]; show ¬ (s.c.cur_size + 1 > s.c.max_size); omega
    refine ⟨{ s1 with c := { s1.c with index := hashtable_put s1.c.index path s.heap.length,
                                       cur_size := s1.c.cur_size + 1 } }, ?_, hm1, hlen1,
      ?_, ?_, ?_⟩
    · simp [cache_put, halloc, hins, hcond]
    · exact (hsd1'.2 _).trans hdata0
    · intro _
      refine ⟨⟨dll_frame hd1 (fun _ _ => rfl) rfl rfl, ?_, ?_⟩, ?_, ?_⟩
      · show s1.c.cur_size + 1 = ((s.heap.length :: L).length : Int)
        rw [hc1]; show s.c.cur_size + 1 = _; rw [hsz]; simp
      · show s1.c.cur_size + 1 ≤ s1.c.max_size
        omega
      · show hashtable_put s1.c.index path s.heap.length = _
        rw [hi1]
      · intro q hq
        exact (hsd1'.2 q).trans (hdataq q hq)
    · intro hc; omega
  · -- eviction
    have heq : s.c.cur_size = s.c.max_size := le_antisymm hle (not_lt.mp hfull)
    have hcond : s1.c.cur_size + 1 > s1.c.max_size := by
      rw [hc1, hm1]; show s.c.cur_size + 1 > s.c.max_size; omega
    have hLlen : 1 ≤ L.length := by
      have : (1 : Int) ≤ (L.length : Int) := by rw [← hsz, heq]; exact hcap
      exact_mod_cast this
    have hLne : L ≠ [] := by intro hc; simp [hc] at hLlen
    let s3 : State := { s1 with c := { s1.c with
      index := hashtable_put s1.c.index path s.heap.length, cur_size := s1.c.cur_size + 1 } }
    have hd3 : dll s3 (s.heap.length :: L) := dll_frame hd1 (fun _ _ => rfl) rfl rfl
    obtain ⟨t, s4, hrem, hlast, hd4, hsd4, hi4, hh4, hm4, hc4⟩ :=
      dllist_remove_tail_spec hd3 (by simp; omega)
    have hdrop : (s.heap.length :: L).dropLast = s.heap.length :: L.dropLast :=
      List.dropLast_cons_of_ne_nil hLne
    rw [hdrop] at hd4
    have hlastL : L.getLast? = some t := by
      cases L with
      | nil => exact absurd rfl hLne
      | cons a R => rw [List.getLast?_cons_cons] at hlast; exact hlast
    have htL : t ∈ L := List.mem_of_getLast?_eq_some hlastL
    have htne : t ≠ s.heap.length := fun hc => hpL (hc ▸ htL)
    have htdrop : t ∉ s.heap.length :: L.dropLast := by
      intro hc
      rcases List.mem_cons.mp hc with h | h
      · exact htne h
      · have hsplit : L = L.dropLast ++ [t] := by
          have := List.dropLast_concat_getLast hLne
          have hg : L.getLast hLne = t := by
            have := List.getLast?_eq_getLast L hLne
            rw [hlastL] at this
            exact (Option.some.inj this).symm
          rw [hg] at this
          exact this.symm
        have hnd := hd.1
        rw [hsplit] at hnd
        exact (List.nodup_append.mp hnd).2.2 h (List.mem_singleton_self t)
    obtain ⟨et, hlt⟩ := dlseg_live _ _ _ hd3.2.1 t (List.mem_cons_of_mem _ htL)
    obtain ⟨et4, hlt4, _⟩ := live_of_same_data hsd4 hlt
    obtain ⟨h6, hfree, hlen6, hdead, hother⟩ := free_entry_spec hlt4
    have hsd4' : same_data s1.heap s4.heap := hsd4
    refine ⟨{ heap := h6, c := { s4.c with index := hashtable_delete s4.c.index path } },
      ?_, ?_, ?_, ?_, ?_, ?_⟩
    · simp [cache_put, halloc, hins, hcond]
      show (dllist_remove_tail s3).bind _ = _
      rw [hrem]
      simp [hfree]
    · show s4.c.max_size = s.c.max_size
      rw [hm4]; exact hm1
    · show h6.length = s.heap.length + 1
      rw [hlen6, hsd4'.1, hlen1]
    · show data h6 s.heap.length = _
      rw [data_eq_of_load_eq (hother _ (Ne.symm htne)), hsd4'.2, hsd1'.2]
      exact hdata0
    · intro hc; omega
    · intro _
      refine ⟨t, hlastL, ⟨?_, ?_, ?_⟩, ?_, hdead, ?_⟩
      · refine dll_frame hd4 (fun q hq => ?_) rfl rfl
        exact hother q (fun hc => htdrop (hc ▸ hq))
      · show s4.c.cur_size = ((s.heap.length :: L.dropLast).length : Int)
        rw [hc4]; show s1.c.cur_size + 1 - 1 = _
        rw [hc1]; show s.c.cur_size + 1 - 1 = _
        rw [hsz]; simp; omega
      · show s4.c.cur_size ≤ s4.c.max_size
        rw [hc4, hm4]; show s1.c.cur_size + 1 - 1 ≤ s1.c.max_size
        omega
      · show hashtable_delete s4.c.index path = _
        rw [hi4]; show hashtable_delete (hashtable_put s1.c.index path s.heap.length) path = _
        rw [hi1]
      · intro q hq hqt
        rw [data_eq_of_load_eq (hother q hqt), hsd4'.2, hsd1'.2]
        exact hdataq q hq


/-! ## Facts about the key index -/

theorem lookup_filter_ne (key : String) : ∀ (ht : hashtable) (k : String),
    List.lookup k (ht.filter (fun r => r.1 != key)) = if k = key then none else List.lookup k ht
  | [], k => by simp
  | (k0, v0) :: rest, k => by
    have ih := lookup_filter_ne key rest k
    by_cases h0 : k0 = key
    · subst h0
      by_cases hk : k = k0
      · subst hk; simp [List.filter_cons, ih]
      · have hb : (k == k0) = false := by simpa using hk
        simp [List.filter_cons, ih, hk, List.lookup_cons, hb]
    · have hf : (k0 != key) = true := by simpa using h0
      by_cases hk : k = key
      · subst hk
        have hb : (k == k0) = false := by simpa using fun hc => h0 hc.symm
        simp [List.filter_cons, hf, List.lookup_cons, hb, ih]
      · by_cases hkk : k = k0
        · subst hkk; simp [List.filter_cons, hf, hk]
        · have hb : (k == k0) = false := by simpa using hkk
          simp [List.filter_cons, hf, List.lookup_cons, hb, ih, hk]

theorem hashtable_get_put (ht : hashtable) (key k : String) (data : Ptr) :
    hashtable_get (hashtable_put ht key data) k
      = if k = key then some data else hashtable_get ht k := by
  by_cases hk : k = key
  · subst hk; simp [hashtable_get, hashtable_put]
  · have hb : (k == key) = false := by simpa using hk
    simp [hashtable_get, hashtable_put, List.lookup_cons, hb, lookup_filter_ne, hk]

theorem hashtable_get_delete (ht : hashtable) (key k : String) :
    hashtable_get (hashtable_delete ht key) k
      = if k = key then none else hashtable_get ht k := by
  simp [hashtable_get, hashtable_delete, lookup_filter_ne]

theorem mem_of_hashtable_get : ∀ (ht : hashtable) (k : String) (p : Ptr),
    hashtable_get ht k = some p → (k, p) ∈ ht
  | [], k, p, h => by simp [hashtable_get] at h
  | (k0, v0) :: rest, k, p, h => by
    by_cases hk : k = k0
    · subst hk
      have : v0 = p := by simpa [hashtable_get] using h
      subst this
      exact List.mem_cons_self _ _
    · have hb : (k == k0) = false := by simpa using hk
      have h1 : hashtable_get rest k = some p := by
        simpa [hashtable_get, List.lookup_cons, hb] using h
      exact List.mem_cons_of_mem _ (mem_of_hashtable_get rest k p h1)

theorem hashtable_get_mem {ht : hashtable} {L : List Ptr} (hi : index_in_list ht L)
    {k : String} {p : Ptr} (h : hashtable_get ht k = some p) : p ∈ L :=
  hi (k, p) (mem_of_hashtable_get ht k p h)

/-! ## Facts used by several claims -/

theorem wf_fresh (max_size hashsize : Int) (h : 0 ≤ max_size) :
    wf (fresh max_size hashsize) [] := by
  refine ⟨⟨List.nodup_nil, trivial, rfl, rfl⟩, rfl, ?_⟩
  exact h

/-- Only the first element of a well-formed list can be both head and tail,
and then it is the only element. -/
theorem dll_tail_eq_head {s : State} {p : Ptr} {R : List Ptr} (hd : dll s (p :: R))
    (ht : s.c.tail = some p) : R = [] := by
  cases R with
  | nil => rfl
  | cons a R' =>
    exfalso
    have h1 : (p :: a :: R').getLast? = some p := by rw [← hd.2.2.2]; exact ht
    rw [List.getLast?_cons_cons] at h1
    have hmem : p ∈ a :: R' := List.mem_of_getLast?_eq_some h1
    exact (List.nodup_cons.mp hd.1).1 hmem

/-- Any run of `cache_put` calls from a well-formed state of capacity at least
1 completes in a well-formed state of the same capacity. -/
theorem cache_put_all_wf : ∀ (calls : List put_args) (s : State) (L : List Ptr),
    wf s L → 1 ≤ s.c.max_size →
    ∃ s1 L1, cache_put_all s calls = some s1 ∧ wf s1 L1 ∧ s1.c.max_size = s.c.max_size
  | [], s, L, hw, _ => ⟨s, L, rfl, hw, rfl⟩
  | a :: rest, s, L, hw, hcap => by
    obtain ⟨s1, hput, hm, _, _, hlt, heq⟩ :=
      cache_put_spec hw hcap a.path a.content_type a.content a.content_length
    have hw1 : ∃ L1, wf s1 L1 := by
      rcases lt_or_eq_of_le hw.2.2 with h | h
      · exact ⟨_, (hlt h).1⟩
      · obtain ⟨t, _, hw1, _⟩ := heq h
        exact ⟨_, hw1⟩
    obtain ⟨L1, hw1⟩ := hw1
    obtain ⟨s2, L2, hrun, hw2, hm2⟩ := cache_put_all_wf rest s1 L1 hw1 (by rw [hm]; exact hcap)
    refine ⟨s2, L2, ?_, hw2, hm2.trans hm⟩
    simp [cache_put_all, hput, hrun]

/-- The loop of `cache_free` on a well-formed segment: with fuel for one
iteration per entry it frees the entries in list order and nothing else. -/
theorem cache_free_loop_spec : ∀ (L : List Ptr) (fuel : Nat) (h : Heap) (prev : Option Ptr)
    (freed : List Ptr), dlseg h prev L none → L.Nodup → L.length ≤ fuel →
    ∃ h1, cache_free_loop fuel h L.head? freed = some (h1, freed ++ L) ∧
      h1.length = h.length ∧ (∀ p ∈ L, load h1 p = none) ∧
      (∀ q, q ∉ L → load h1 q = load h q)
  | [], fuel, h, _, freed, _, _, _ => by
    refine ⟨h, ?_, rfl, fun p hp => by simp at hp, fun _ _ => rfl⟩
    cases fuel <;> simp [cache_free_loop]
  | a :: R, 0, _, _, _, _, _, hf => by simp at hf
  | a :: R, fuel + 1, h, prev, freed, hseg, hnd, hf => by
    obtain ⟨hp, hn, hr⟩ := hseg
    have hn' : get_next h a = some R.head? := by simpa using hn
    obtain ⟨ea, hla, _⟩ := load_of_get_next hn
    obtain ⟨h1, hfree, hlen1, hdead, hother⟩ := free_entry_spec hla
    have hnd1 := List.nodup_cons.mp hnd
    have hr1 : dlseg h1 (some a) R none := by
      refine dlseg_congr _ _ _ (fun q hq => ?_) hr
      have hqa : q ≠ a := fun hc => hnd1.1 (hc ▸ hq)
      simp [get_prev, get_next, hother q hqa]
    obtain ⟨h2, hloop, hlen2, hdead2, hother2⟩ :=
      cache_free_loop_spec R fuel h1 (some a) (freed ++ [a]) hr1 hnd1.2
        (by simpa using hf)
    refine ⟨h2, ?_, hlen2.trans hlen1, ?_, ?_⟩
    · simp [cache_free_loop, hn', hfree, hloop]
    · intro p hp
      rcases List.mem_cons.mp hp with rfl | hin
      · by_cases hpR : p ∈ R
        · exact hdead2 p hpR
        · rw [hother2 p hpR]; exact hdead
      · exact hdead2 p hin
    · intro q hq
      have hqa : q ≠ a := fun hc => hq (hc ▸ List.mem_cons_self a R)
      have hqR : q ∉ R := fun hc => hq (List.mem_cons_of_mem a hc)
      rw [hother2 q hqR, hother q hqa]


/-- Below capacity, `cache_put` followed immediately by `cache_get` of the same
key returns the entry just stored, with the arguments of the put. -/
theorem cache_put_get_with_room {s : State} {L : List Ptr} (hw : wf s L)
    (hroom : s.c.cur_size < s.c.max_size) (path content_type : String)
    (content : List byte) (content_length : Int) :
    ∃ s1, cache_put s path content_type content content_length = some s1 ∧
      cache_get s1 path = some (some s.heap.length, s1) ∧
      data s1.heap s.heap.length
        = some (path, content_type, content_length, content.take content_length.toNat) := by
  have hnn : (0 : Int) ≤ s.c.cur_size := by rw [hw.2.1]; exact Int.natCast_nonneg _
  obtain ⟨s1, hput, _, _, hdata, hlt, _⟩ :=
    cache_put_spec hw (by omega) path content_type content content_length
  obtain ⟨hw1, hi1, _⟩ := hlt hroom
  have hget : hashtable_get s1.c.index path = some s.heap.length := by
    rw [hi1, hashtable_get_put]; simp
  have hhead : s1.c.head = some s.heap.length := by rw [hw1.1.2.2.1]; rfl
  exact ⟨s1, hput, by simp [cache_get, hget, dllist_move_to_head, hhead], hdata⟩

/-- At capacity, `cache_put` followed immediately by `cache_get` of the same
key answers "not found": the eviction branch deletes the record of the key
just put. -/
theorem cache_put_get_when_full {s : State} {L : List Ptr} (hw : wf s L)
    (hcap : 1 ≤ s.c.max_size) (hfull : s.c.cur_size = s.c.max_size)
    (path content_type : String) (content : List byte) (content_length : Int) :
    ∃ s1, cache_put s path content_type content content_length = some s1 ∧
      s1.c.head = some s.heap.length ∧ cache_get s1 path = some (none, s1) := by
  obtain ⟨s1, hput, _, _, _, _, heq⟩ :=
    cache_put_spec hw hcap path content_type content content_length
  obtain ⟨t, _, hw1, hi1, _⟩ := heq hfull
  have hget : hashtable_get s1.c.index path = none := by
    rw [hi1, hashtable_get_delete]; simp
  exact ⟨s1, hput, by rw [hw1.1.2.2.1]; rfl, by simp [cache_get, hget]⟩

/-! ## The claims -/

/-- C1 (capacity invariant).  For every capacity of at least 1 and every
finite sequence of `cache_put` calls on a freshly created cache, the run
completes in a well-formed state with `cur_size <= max_size` (every prefix of
a sequence being a sequence, this holds after each call), and one more
`cache_put` leaves `cur_size = min (old cur_size + 1) max_size`: the list grows
by the new entry when there is room and otherwise loses exactly its last
element. -/
theorem capacity_invariant (max_size hashsize : Int) (hcap : 1 ≤ max_size)
    (calls : List put_args) :
    ∃ s L, cache_put_all (fresh max_size hashsize) calls = some s ∧ wf s L ∧
      s.c.max_size = max_size ∧ s.c.cur_size ≤ max_size ∧
      ∀ a : put_args, ∃ s1,
        cache_put s a.path a.content_type a.content a.content_length = some s1 ∧
        s1.c.max_size = max_size ∧
        s1.c.cur_size = min (s.c.cur_size + 1) max_size ∧
        s1.c.cur_size ≤ max_size ∧
        (s.c.cur_size + 1 ≤ max_size → wf s1 (s.heap.length :: L)) ∧
        (max_size < s.c.cur_size + 1 → wf s1 (s.heap.length :: L.dropLast)) := by
  obtain ⟨s, L, hrun, hw, hm⟩ :=
    cache_put_all_wf calls (fresh max_size hashsize) [] (wf_fresh max_size hashsize (by omega))
      hcap
  have hm' : s.c.max_size = max_size := hm
  have hle : s.c.cur_size ≤ max_size := by rw [← hm']; exact hw.2.2
  refine ⟨s, L, hrun, hw, hm', hle, fun a => ?_⟩
  obtain ⟨s1, hput, hm1, _, _, hlt, heq⟩ :=
    cache_put_spec hw (by rw [hm']; exact hcap) a.path a.content_type a.content
      a.content_length
  rcases lt_or_eq_of_le hle with h | h
  · have hw1 := (hlt (by rw [hm']; exact h)).1
    have hc1 : s1.c.cur_size = s.c.cur_size + 1 := by
      rw [hw1.2.1, hw.2.1]; simp
    refine ⟨s1, hput, hm1.trans hm', ?_, ?_, fun _ => hw1, fun hc => by omega⟩
    · rw [hc1]; exact (min_eq_left (by omega)).symm
    · omega
  · obtain ⟨t, hlast, hw1, _⟩ := heq (by rw [hm']; exact h)
    have hLne : L ≠ [] := by
      intro hc; rw [hc] at hlast; simp at hlast
    have hpos : 0 < L.length := List.length_pos.mpr hLne
    have hc1 : s1.c.cur_size = s.c.cur_size := by
      rw [hw1.2.1, hw.2.1]; simp; omega
    refine ⟨s1, hput, hm1.trans hm', ?_, ?_, fun hc => by omega, fun _ => hw1⟩
    · rw [hc1, h]; exact (min_eq_right (by omega)).symm
    · omega

/-- Witness for C1: capacity 2 and the calls for "a", "b", "c". -/
theorem capacity_invariant_witness :
    (1 : Int) ≤ 2 ∧
    ∃ s L, cache_put_all (fresh 2 0) [put_a, put_b, put_c] = some s ∧ wf s L ∧
      s.c.max_size = 2 ∧ s.c.cur_size ≤ 2 ∧
      ∀ a : put_args, ∃ s1,
        cache_put s a.path a.content_type a.content a.content_length = some s1 ∧
        s1.c.max_size = 2 ∧
        s1.c.cur_size = min (s.c.cur_size + 1) 2 ∧
        s1.c.cur_size ≤ 2 ∧
        (s.c.cur_size + 1 ≤ 2 → wf s1 (s.heap.length :: L)) ∧
        ((2 : Int) < s.c.cur_size + 1 → wf s1 (s.heap.length :: L.dropLast)) :=
  ⟨by decide, capacity_invariant 2 0 (by decide) [put_a, put_b, put_c]⟩

/-- C2 (eviction order), evaluated at capacity 2 with the keys "a", "b", "c"
put in that order: the evicted key "a" still has an index record, which now
refers to the freed cell 0, so `cache_get` of "a" reads freed memory instead of
answering "not found"; and the newest key "c" has lost its record, so
`cache_get` of "c" answers "not found" although its entry heads the list. -/
theorem eviction_deletes_new_key :
    ∃ s, cache_put_all (fresh 2 0) [put_a, put_b, put_c] = some s ∧
      dll s [2, 1] ∧
      hashtable_get s.c.index "a" = some 0 ∧ load s.heap 0 = none ∧
      cache_get s "a" = none ∧
      data s.heap 2 = some ("c", "image/png", 1, [137]) ∧
      cache_get s "c" = some (none, s) ∧
      (cache_get s "b").map (fun r => r.1) = some (some 1) := by
  decide

/-- C3 (round trip), evaluated on a full cache of capacity 2: `cache_put` of
"c" followed immediately by `cache_get` of "c" answers "not found". -/
theorem round_trip_fails_when_full :
    ∃ s1, cache_put (sample_state 2) "c" "image/png" [137] 1 = some s1 ∧
      s1.c.head = some 2 ∧ data s1.heap 2 = some ("c", "image/png", 1, [137]) ∧
      cache_get s1 "c" = some (none, s1) := by
  decide

/-- C4 (index/list synchronisation), evaluated at capacity 1 with the distinct
keys "a", "b" put in that order: the list holds only the entry at address 1
with key "b", which has no index record, and the only index record maps "a" to
address 0, which is freed and not in the list. -/
theorem index_out_of_sync_after_eviction :
    ∃ s, cache_put_all (fresh 1 0) [put_a, put_b] = some s ∧
      dll s [1] ∧ (load s.heap 1).map (fun e => e.path) = some "b" ∧
      hashtable_get s.c.index "b" = none ∧
      s.c.index = [("a", 0)] ∧ 0 ∉ [1] ∧ load s.heap 0 = none := by
  decide

/-- C5 (recency ordering).  In a valid state of capacity at least 1,
`cache_put` completes with the entry it created (address `s.heap.length`,
holding the arguments) at the head of the list, and a `cache_get` that hits
completes with the returned entry at the head, the other entries keeping their
order; in both cases that entry is the tail only if it is the only entry. -/
theorem recency_ordering (s : State) (L : List Ptr) (hv : valid s L)
    (hcap : 1 ≤ s.c.max_size) :
    (∀ (path content_type : String) (content : List byte) (content_length : Int),
      ∃ s1 R, cache_put s path content_type content content_length = some s1 ∧
        dll s1 (s.heap.length :: R) ∧ s1.c.head = some s.heap.length ∧
        data s1.heap s.heap.length
          = some (path, content_type, content_length, content.take content_length.toNat) ∧
        (s1.c.tail = some s.heap.length → R = [])) ∧
    (∀ (path : String) (ce : Ptr), hashtable_get s.c.index path = some ce →
      ∃ s1, cache_get s path = some (some ce, s1) ∧
        dll s1 (ce :: L.erase ce) ∧ s1.c.head = some ce ∧
        (s1.c.tail = some ce → L.erase ce = [])) := by
  refine ⟨fun path content_type content content_length => ?_, fun path ce hget => ?_⟩
  · obtain ⟨s1, hput, _, _, hdata, hlt, heq⟩ :=
      cache_put_spec hv.1 hcap path content_type content content_length
    have hd1 : ∃ R, dll s1 (s.heap.length :: R) := by
      rcases lt_or_eq_of_le hv.1.2.2 with h | h
      · exact ⟨_, (hlt h).1.1⟩
      · obtain ⟨t, _, hw1, _⟩ := heq h
        exact ⟨_, hw1.1⟩
    obtain ⟨R, hd1⟩ := hd1
    exact ⟨s1, R, hput, hd1, by rw [hd1.2.2.1]; rfl, hdata, dll_tail_eq_head hd1⟩
  · have hmem : ce ∈ L := hashtable_get_mem hv.2 hget
    obtain ⟨s1, hmv, hd1, _⟩ := dllist_move_to_head_spec hv.1.1 hmem
    refine ⟨s1, ?_, hd1, by rw [hd1.2.2.1]; rfl, dll_tail_eq_head hd1⟩
    simp [cache_get, hget, hmv]

/-- Witness for C5: the sample state with capacity 2 (a full cache). -/
theorem recency_ordering_witness :
    valid (sample_state 2) [1, 0] ∧ 1 ≤ (sample_state 2).c.max_size ∧
    ((∀ (path content_type : String) (content : List byte) (content_length : Int),
      ∃ s1 R, cache_put (sample_state 2) path content_type content content_length = some s1 ∧
        dll s1 ((sample_state 2).heap.length :: R) ∧
        s1.c.head = some (sample_state 2).heap.length ∧
        data s1.heap (sample_state 2).heap.length
          = some (path, content_type, content_length, content.take content_length.toNat) ∧
        (s1.c.tail = some (sample_state 2).heap.length → R = [])) ∧
    (∀ (path : String) (ce : Ptr), hashtable_get (sample_state 2).c.index path = some ce →
      ∃ s1, cache_get (sample_state 2) path = some (some ce, s1) ∧
        dll s1 (ce :: [1, 0].erase ce) ∧ s1.c.head = some ce ∧
        (s1.c.tail = some ce → [1, 0].erase ce = []))) :=
  ⟨by decide, by decide, recency_ordering (sample_state 2) [1, 0] (by decide) (by decide)⟩

/-- C6 (miss behaviour).  For every state and every key without a record in
the index, `cache_get` returns `NULL` and leaves the state as it was. -/
theorem cache_get_miss (s : State) (path : String)
    (hmiss : hashtable_get s.c.index path = none) :
    cache_get s path = some (none, s) := by
  simp [cache_get, hmiss]

/-- Witness for C6: the key "zzz" was never put into the sample state. -/
theorem cache_get_miss_witness :
    hashtable_get (sample_state 2).c.index "zzz" = none ∧
    cache_get (sample_state 2) "zzz" = some (none, sample_state 2) :=
  ⟨by decide, cache_get_miss (sample_state 2) "zzz" (by decide)⟩

/-- C7 (duplicate-key put).  In a valid state with room for two more entries,
two consecutive `cache_put` calls with the same key leave two distinct entries
with that key in the list, the newer at the head and the older right behind
it, raise `cur_size` by 2, and make `cache_get` of the key return the newer
entry without changing the state; no key looks up the older entry. -/
theorem duplicate_key_put (s : State) (L : List Ptr) (hv : valid s L)
    (hroom : s.c.cur_size + 2 ≤ s.c.max_size) (key : String)
    (ct1 : String) (c1 : List byte) (n1 : Int) (ct2 : String) (c2 : List byte) (n2 : Int) :
    ∃ s1 s2, cache_put s key ct1 c1 n1 = some s1 ∧ cache_put s1 key ct2 c2 n2 = some s2 ∧
      s.heap.length ≠ s.heap.length + 1 ∧
      dll s2 ((s.heap.length + 1) :: s.heap.length :: L) ∧
      data s2.heap s.heap.length = some (key, ct1, n1, c1.take n1.toNat) ∧
      data s2.heap (s.heap.length + 1) = some (key, ct2, n2, c2.take n2.toNat) ∧
      s2.c.cur_size = s.c.cur_size + 2 ∧
      cache_get s2 key = some (some (s.heap.length + 1), s2) ∧
      ∀ k, hashtable_get s2.c.index k ≠ some s.heap.length := by
  obtain ⟨hw, hidx⟩ := hv
  have hnn : (0 : Int) ≤ s.c.cur_size := by rw [hw.2.1]; exact Int.natCast_nonneg _
  obtain ⟨s1, hput1, hm1, hlen1, hdata1, hlt1, _⟩ :=
    cache_put_spec hw (by omega) key ct1 c1 n1
  obtain ⟨hw1, hi1, _⟩ := hlt1 (by omega)
  have hc1 : s1.c.cur_size = s.c.cur_size + 1 := by rw [hw1.2.1, hw.2.1]; simp
  obtain ⟨s2, hput2, hm2, hlen2, hdata2, hlt2, _⟩ :=
    cache_put_spec hw1 (by omega) key ct2 c2 n2
  obtain ⟨hw2, hi2, hkeep2⟩ := hlt2 (by omega)
  rw [hlen1] at hw2 hi2 hdata2 hkeep2
  have hpL : s.heap.length ∉ L := fun hc => Nat.lt_irrefl _ (dll_lt hw.1 _ hc)
  have hget2 : hashtable_get s2.c.index key = some (s.heap.length + 1) := by
    rw [hi2, hashtable_get_put]; simp
  have hhead2 : s2.c.head = some (s.heap.length + 1) := by rw [hw2.1.2.2.1]; rfl
  refine ⟨s1, s2, hput1, hput2, by omega, hw2.1, ?_, hdata2, ?_, ?_, fun k hk => ?_⟩
  · rw [hkeep2 _ (by omega)]; exact hdata1
  · rw [hw2.2.1, hw.2.1]; simp; omega
  · simp [cache_get, hget2, dllist_move_to_head, hhead2]
  · rw [hi2, hashtable_get_put, hi1, hashtable_get_put] at hk
    by_cases hkk : k = key
    · simp [hkk] at hk
    · simp only [hkk, if_false] at hk
      exact hpL (hashtable_get_mem hidx hk)

/-- Witness for C7: the key "a" put twice into the sample state with capacity
4, where it already has an entry. -/
theorem duplicate_key_put_witness :
    valid (sample_state 4) [1, 0] ∧ (sample_state 4).c.cur_size + 2 ≤ (sample_state 4).c.max_size ∧
    ∃ s1 s2, cache_put (sample_state 4) "a" "text/plain" [1] 1 = some s1 ∧
      cache_put s1 "a" "text/html" [2, 3] 2 = some s2 ∧
      (sample_state 4).heap.length ≠ (sample_state 4).heap.length + 1 ∧
      dll s2 (((sample_state 4).heap.length + 1) :: (sample_state 4).heap.length :: [1, 0]) ∧
      data s2.heap (sample_state 4).heap.length
        = some ("a", "text/plain", 1, List.take (1 : Int).toNat [1]) ∧
      data s2.heap ((sample_state 4).heap.length + 1)
        = some ("a", "text/html", 2, List.take (2 : Int).toNat [2, 3]) ∧
      s2.c.cur_size = (sample_state 4).c.cur_size + 2 ∧
      cache_get s2 "a" = some (some ((sample_state 4).heap.length + 1), s2) ∧
      ∀ k, hashtable_get s2.c.index k ≠ some (sample_state 4).heap.length :=
  ⟨by decide, by decide,
    duplicate_key_put (sample_state 4) [1, 0] (by decide) (by decide) "a" "text/plain" [1] 1
      "text/html" [2, 3] 2⟩

/-- C8 (`cache_create`), evaluated at any arguments: the body builds the
record the claim describes, but the call returns no value. -/
theorem cache_create_returns_nothing (max_size hashsize : Int) :
    cache_create max_size hashsize = none ∧
      (cache_create_new max_size hashsize).head = none ∧
      (cache_create_new max_size hashsize).tail = none ∧
      (cache_create_new max_size hashsize).cur_size = 0 ∧
      (cache_create_new max_size hashsize).max_size = max_size ∧
      (cache_create_new max_size hashsize).index = [] :=
  ⟨rfl, rfl, rfl, rfl, rfl, rfl⟩

/-- C9 (teardown).  For every cache whose recency list is well formed and
reads `L` (possibly empty), `cache_free` with fuel for one loop iteration per
entry terminates; the `free_entry` calls are exactly the entries of `L`, in
list order and without repetition; afterwards every entry of `L` is dead and
no other cell was touched. -/
theorem cache_free_frees_each_once (s : State) (L : List Ptr) (hd : dll s L) (fuel : Nat)
    (hfuel : L.length ≤ fuel) :
    ∃ h1, cache_free fuel s = some (h1, L) ∧ L.Nodup ∧
      (∀ p ∈ L, load h1 p = none) ∧ (∀ q, q ∉ L → load h1 q = load s.heap q) := by
  obtain ⟨h1, hloop, _, hdead, hother⟩ :=
    cache_free_loop_spec L fuel s.heap none [] hd.2.1 hd.1 hfuel
  refine ⟨h1, ?_, hd.1, hdead, hother⟩
  rw [cache_free, hd.2.2.1, hloop]; simp

/-- Witness for C9: tearing down the sample state with fuel 2. -/
theorem cache_free_frees_each_once_witness :
    dll (sample_state 2) [1, 0] ∧ [1, 0].length ≤ 2 ∧
    ∃ h1, cache_free 2 (sample_state 2) = some (h1, [1, 0]) ∧ [1, 0].Nodup ∧
      (∀ p ∈ [1, 0], load h1 p = none) ∧
      (∀ q, q ∉ [1, 0] → load h1 q = load (sample_state 2).heap q) :=
  ⟨by decide, by decide,
    cache_free_frees_each_once (sample_state 2) [1, 0] (by decide) 2 (by decide)⟩

/-- C10 (effect of put on the recency list).  In a well-formed state of
capacity at least 1 whose list reads `L`, `cache_put` completes; the list
afterwards is the new entry followed by `L` when `cur_size < max_size`, and
the new entry followed by `L` without its last element when
`cur_size = max_size`, the removed entry being the old tail, which is freed;
all other entries of `L` stay live with their payload. -/
theorem cache_put_list_effect (s : State) (L : List Ptr) (hw : wf s L)
    (hcap : 1 ≤ s.c.max_size) (path content_type : String) (content : List byte)
    (content_length : Int) :
    ∃ s1, cache_put s path content_type content content_length = some s1 ∧
      data s1.heap s.heap.length
        = some (path, content_type, content_length, content.take content_length.toNat) ∧
      (s.c.cur_size < s.c.max_size → dll s1 (s.heap.length :: L) ∧
        ∀ q ∈ L, data s1.heap q = data s.heap q) ∧
      (s.c.cur_size = s.c.max_size →
        ∃ t, L.getLast? = some t ∧ s.c.tail = some t ∧
          dll s1 (s.heap.length :: L.dropLast) ∧ load s1.heap t = none ∧
          ∀ q ∈ L.dropLast, data s1.heap q = data s.heap q) := by
  obtain ⟨s1, hput, _, _, hdata, hlt, heq⟩ :=
    cache_put_spec hw hcap path content_type content content_length
  have hpL : ∀ q ∈ L, q ≠ s.heap.length := fun q hq hc =>
    Nat.lt_irrefl _ (hc ▸ dll_lt hw.1 q hq)
  refine ⟨s1, hput, hdata, fun h => ?_, fun h => ?_⟩
  · obtain ⟨hw1, _, hkeep⟩ := hlt h
    exact ⟨hw1.1, fun q hq => hkeep q (hpL q hq)⟩
  · obtain ⟨t, hlast, hw1, _, hdead, hkeep⟩ := heq h
    refine ⟨t, hlast, by rw [hw.1.2.2.2]; exact hlast, hw1.1, hdead, fun q hq => ?_⟩
    have hqL : q ∈ L := List.dropLast_subset L hq
    have hnd1 := List.nodup_cons.mp hw1.1.1
    refine hkeep q (hpL q hqL) (fun hc => ?_)
    -- `t` is the last element of the duplicate-free `L`, so it is not in `L.dropLast`
    have hLne : L ≠ [] := by intro hc'; rw [hc'] at hlast; simp at hlast
    have hsplit : L.dropLast ++ [t] = L := by
      have h1 := List.dropLast_concat_getLast hLne
      have h2 := List.getLast?_eq_getLast L hLne
      rw [hlast] at h2
      rw [← Option.some.inj h2] at h1
      exact h1
    have hnd := hw.1.1
    rw [← hsplit] at hnd
    exact (List.nodup_append.mp hnd).2.2 hq (hc ▸ List.mem_singleton_self t)

/-- Witness for C10: a put into the sample state with capacity 2 (a full
cache). -/
theorem cache_put_list_effect_witness :
    wf (sample_state 2) [1, 0] ∧ 1 ≤ (sample_state 2).c.max_size ∧
    ∃ s1, cache_put (sample_state 2) "c" "image/png" [137] 1 = some s1 ∧
      data s1.heap (sample_state 2).heap.length
        = some ("c", "image/png", 1, List.take (1 : Int).toNat [137]) ∧
      ((sample_state 2).c.cur_size < (sample_state 2).c.max_size →
        dll s1 ((sample_state 2).heap.length :: [1, 0]) ∧
        ∀ q ∈ [1, 0], data s1.heap q = data (sample_state 2).heap q) ∧
      ((sample_state 2).c.cur_size = (sample_state 2).c.max_size →
        ∃ t, [1, 0].getLast? = some t ∧ (sample_state 2).c.tail = some t ∧
          dll s1 ((sample_state 2).heap.length :: [1, 0].dropLast) ∧ load s1.heap t = none ∧
          ∀ q ∈ [1, 0].dropLast, data s1.heap q = data (sample_state 2).heap q) :=
  ⟨by decide, by decide,
    cache_put_list_effect (sample_state 2) [1, 0] (by decide) (by decide) "c" "image/png"
      [137] 1⟩


/-! ## Further facts: the halves of `cache_put`, walks, links -/

/-- `cache_put` is its first half followed by the test and, if the test
succeeds, the eviction branch. -/
theorem cache_put_eq_insert_evict (s : State) (path content_type : String)
    (content : List byte) (content_length : Int) :
    cache_put s path content_type content content_length
      = (cache_put_insert s path content_type content content_length).bind
          (fun s3 => if s3.c.cur_size > s3.c.max_size then cache_put_evict s3 path
            else some s3) := by
  unfold cache_put cache_put_insert cache_put_evict
  cases hins : dllist_insert_head
      { heap := (alloc_entry s.heap path content_type content content_length).2, c := s.c }
      (alloc_entry s.heap path content_type content content_length).1 with
  | none => simp [hins]
  | some s1 => simp [hins]

/-- The first half of `cache_put` on a well-formed list: the new entry, at
address `s.heap.length`, is put in front and `cur_size` is raised by one. -/
theorem cache_put_insert_spec {s : State} {L : List Ptr} (hd : dll s L)
    (path content_type : String) (content : List byte) (content_length : Int) :
    ∃ s3, cache_put_insert s path content_type content content_length = some s3 ∧
      dll s3 (s.heap.length :: L) ∧ s3.c.cur_size = s.c.cur_size + 1 ∧
      s3.c.max_size = s.c.max_size := by
  obtain ⟨e0, he0⟩ : ∃ e0 : cache_entry, (alloc_entry s.heap path content_type content
      content_length).2 = s.heap ++ [some e0] := ⟨_, rfl⟩
  have halloc : alloc_entry s.heap path content_type content content_length
      = (s.heap.length, s.heap ++ [some e0]) := by
    rw [← he0]; rfl
  have hpL : s.heap.length ∉ L := fun hc => Nat.lt_irrefl _ (dll_lt hd _ hc)
  have hlive0 : ∀ q, q < s.heap.length → load (s.heap ++ [some e0]) q = load s.heap q := by
    intro q hq
    simp [load, List.getElem?_append_left hq]
  have hd0 : dll { heap := s.heap ++ [some e0], c := s.c } L :=
    dll_frame hd (fun q hq => hlive0 q (dll_lt hd q hq)) rfl rfl
  have hl0 : load (s.heap ++ [some e0]) s.heap.length = some e0 := load_append_length _ _
  obtain ⟨s1, hins, hd1, _, _, hm1, hc1⟩ := dllist_insert_head_spec hd0 hl0 hpL
  refine ⟨{ s1 with c := { s1.c with index := hashtable_put s1.c.index path s.heap.length,
                                     cur_size := s1.c.cur_size + 1 } }, ?_,
    dll_frame hd1 (fun _ _ => rfl) rfl rfl, ?_, hm1⟩
  · simp [cache_put_insert, halloc, hins]
  · show s1.c.cur_size + 1 = s.c.cur_size + 1
    rw [hc1]

/-- In a well-formed list of at least two entries the tail's `prev` is a live
entry of the list. -/
theorem dll_tail_prev {s : State} {L : List Ptr} (hd : dll s L) (h2 : 2 ≤ L.length) :
    ∃ t a, s.c.tail = some t ∧ L.getLast? = some t ∧
      get_prev s.heap t = some (some a) ∧ a ∈ L ∧ a ≠ t ∧ ∃ e, load s.heap a = some e := by
  obtain ⟨hnd, hseg, _, htail⟩ := hd
  have hne : L ≠ [] := by intro hc; simp [hc] at h2
  obtain ⟨t, B, hB⟩ : ∃ t B, L = B ++ [t] :=
    ⟨L.getLast hne, L.dropLast, (List.dropLast_concat_getLast hne).symm⟩
  have hBne : B ≠ [] := by intro hc; simp [hB, hc] at h2
  obtain ⟨a, A, hA⟩ : ∃ a A, B = A ++ [a] :=
    ⟨B.getLast hBne, B.dropLast, (List.dropLast_concat_getLast hBne).symm⟩
  subst hB
  have hBlast : B.getLast? = some a := by rw [hA]; exact List.getLast?_concat A
  obtain ⟨hsegB, hsegt⟩ := (dlseg_append B [t] none none).mp hseg
  have htprev : get_prev s.heap t = some (some a) := by
    have := hsegt.1
    simpa [hBlast] using this
  have haB : a ∈ B := List.mem_of_getLast?_eq_some hBlast
  have hat : a ≠ t := fun hc =>
    (List.nodup_append.mp hnd).2.2 haB (hc ▸ List.mem_singleton_self a)
  exact ⟨t, a, by rw [htail]; exact List.getLast?_concat B, List.getLast?_concat B, htprev,
    List.mem_append_left _ haB, hat, dlseg_live _ _ _ hsegB a haB⟩

/-- On a well-formed list of exactly one entry `dllist_remove_tail` stores
through the `NULL` it has just written to `cache->tail`. -/
theorem dllist_remove_tail_singleton {s : State} {p : Ptr} (hd : dll s [p]) :
    s.c.tail = some p ∧ get_prev s.heap p = some none ∧ dllist_remove_tail s = none := by
  obtain ⟨_, hseg, _, htail⟩ := hd
  have ht : s.c.tail = some p := by simpa using htail
  have hp : get_prev s.heap p = some none := hseg.1
  exact ⟨ht, hp, by simp [dllist_remove_tail, ht, hp]⟩

/-- The walk along `next` from the first cell of a well-formed segment reads
the segment. -/
theorem entries_from_spec {h : Heap} : ∀ (L : List Ptr) (fuel : Nat) (prev : Option Ptr),
    dlseg h prev L none → L.length ≤ fuel → entries_from fuel h L.head? = some L
  | [], fuel, _, _, _ => by cases fuel <;> simp [entries_from]
  | a :: R, 0, _, _, hf => by simp at hf
  | a :: R, fuel + 1, prev, hseg, hf => by
    obtain ⟨_, hn, hr⟩ := hseg
    have hn' : get_next h a = some R.head? := by simpa using hn
    have ih := entries_from_spec R fuel (some a) hr (by simpa using hf)
    simp [entries_from, hn', ih]

/-- A well-formed list has at most as many entries as the heap has cells. -/
theorem dll_length_le {s : State} {L : List Ptr} (hd : dll s L) :
    L.length ≤ s.heap.length := by
  have hsub : L ⊆ List.range s.heap.length := fun q hq =>
    List.mem_range.mpr (dll_lt hd q hq)
  have := (List.subperm_of_subset hd.1 hsub).length_le
  simpa using this

theorem list_count_of_dll {s : State} {L : List Ptr} (hd : dll s L) :
    list_count s = some L.length := by
  have := entries_from_spec L s.heap.length none hd.2.1 (dll_length_le hd)
  rw [list_count, hd.2.2.1, this]; rfl


/-- What the list predicate says about the links themselves: `head->prev` and
`tail->next` are `NULL`, `e->next = f` exactly when `f->prev = e` for entries
of the list, and `head`, `tail` are `NULL` exactly when the list is empty. -/
theorem dll_links {s : State} {L : List Ptr} (hd : dll s L) :
    (∀ p, s.c.head = some p → get_prev s.heap p = some none) ∧
    (∀ p, s.c.tail = some p → get_next s.heap p = some none) ∧
    (∀ e ∈ L, ∀ f, get_next s.heap e = some (some f) →
      f ∈ L ∧ get_prev s.heap f = some (some e)) ∧
    (∀ f ∈ L, ∀ e, get_prev s.heap f = some (some e) →
      e ∈ L ∧ get_next s.heap e = some (some f)) ∧
    (s.c.head = none ↔ L = []) ∧ (s.c.tail = none ↔ L = []) := by
  obtain ⟨hnd, hseg, hhead, htail⟩ := hd
  refine ⟨fun p hp => ?_, fun p hp => ?_, fun e he f hf => ?_, fun f hf e he => ?_, ?_, ?_⟩
  · cases L with
    | nil => rw [hhead] at hp; simp at hp
    | cons a R =>
      have : a = p := by rw [hhead] at hp; simpa using hp
      subst this
      exact hseg.1
  · have hne : L ≠ [] := by
      intro hc; rw [htail, hc] at hp; simp at hp
    have hsplit := List.dropLast_concat_getLast hne
    have hlast : L.getLast hne = p := by
      have h1 := List.getLast?_eq_getLast L hne
      rw [← htail, hp] at h1
      exact (Option.some.inj h1).symm
    rw [hlast] at hsplit
    rw [← hsplit] at hseg
    have := ((dlseg_append L.dropLast [p] none none).mp hseg).2
    simpa using this.2.1
  · obtain ⟨A, B, hAB⟩ := List.append_of_mem he
    subst hAB
    obtain ⟨hn, hr⟩ := ((dlseg_append A (e :: B) none none).mp hseg).2.2
    cases B with
    | nil =>
      rw [hf] at hn
      simp at hn
    | cons b B' =>
      have hbf : b = f := by
        rw [hf] at hn
        simpa using hn.symm
      subst hbf
      exact ⟨by simp, hr.1⟩
  · obtain ⟨A, B, hAB⟩ := List.append_of_mem hf
    subst hAB
    obtain ⟨hsegA, hsegR⟩ := (dlseg_append A (f :: B) none none).mp hseg
    have hp := hsegR.1
    rw [he] at hp
    have hAlast : A.getLast? = some e := by
      cases hl : A.getLast? with
      | none => rw [hl] at hp; simp at hp
      | some x => rw [hl] at hp; simpa using hp.symm
    have hAne : A ≠ [] := by
      intro hc; rw [hc] at hAlast; simp at hAlast
    have hsplit := List.dropLast_concat_getLast hAne
    have hlast : A.getLast hAne = e := by
      have h1 := List.getLast?_eq_getLast A hAne
      rw [hAlast] at h1
      exact (Option.some.inj h1).symm
    rw [hlast] at hsplit
    rw [← hsplit] at hsegA
    have hne := ((dlseg_append A.dropLast [e] none _).mp hsegA).2.2.1
    refine ⟨List.mem_append_left _ (List.mem_of_getLast?_eq_some hAlast), ?_⟩
    simpa using hne
  · rw [hhead]; cases L <;> simp
  · rw [htail]; exact List.getLast?_eq_none_iff

/-! ## The claims, continued -/

/-- C11 (`dllist_remove_tail` on a non-empty list), evaluated on a well-formed
list of exactly one entry: the call does not complete, it stores through the
`NULL` it has just assigned to `cache->tail`. -/
theorem remove_tail_single_entry_fails :
    valid one_entry_state [0] ∧ one_entry_state.c.tail = some 0 ∧
      get_prev one_entry_state.heap 0 = some none ∧
      dllist_remove_tail one_entry_state = none := by
  decide

/-- C12 (`dllist_move_to_head`).  For a well-formed list `L` and a member
`ce`, the call completes; afterwards the list reads `ce` followed by `L`
without `ce`, so `ce` is the head, the others keep their order and `tail` is
the last element of the new list; payloads, index and sizes are untouched;
and when `ce` already was the head the state is unchanged. -/
theorem move_to_head_effect (s : State) (L : List Ptr) (ce : Ptr) (hd : dll s L)
    (hce : ce ∈ L) :
    ∃ s1, dllist_move_to_head s ce = some s1 ∧ dll s1 (ce :: L.erase ce) ∧
      s1.c.head = some ce ∧ s1.c.tail = (ce :: L.erase ce).getLast? ∧
      same_data s.heap s1.heap ∧ s1.c.index = s.c.index ∧
      s1.c.max_size = s.c.max_size ∧ s1.c.cur_size = s.c.cur_size ∧
      (s.c.head = some ce → s1 = s) := by
  obtain ⟨s1, hmv, hd1, hsd, hi, hm, hc⟩ := dllist_move_to_head_spec hd hce
  refine ⟨s1, hmv, hd1, by rw [hd1.2.2.1]; rfl, hd1.2.2.2, hsd, hi, hm, hc, fun hh => ?_⟩
  have : dllist_move_to_head s ce = some s := by simp [dllist_move_to_head, hh]
  rw [this] at hmv
  exact (Option.some.inj hmv).symm

/-- Witness for C12: the tail of the sample state is moved to the head. -/
theorem move_to_head_effect_witness :
    dll (sample_state 2) [1, 0] ∧ 0 ∈ [1, 0] ∧
    ∃ s1, dllist_move_to_head (sample_state 2) 0 = some s1 ∧
      dll s1 (0 :: [1, 0].erase 0) ∧
      s1.c.head = some 0 ∧ s1.c.tail = (0 :: [1, 0].erase 0).getLast? ∧
      same_data (sample_state 2).heap s1.heap ∧ s1.c.index = (sample_state 2).c.index ∧
      s1.c.max_size = (sample_state 2).c.max_size ∧
      s1.c.cur_size = (sample_state 2).c.cur_size ∧
      ((sample_state 2).c.head = some 0 → s1 = sample_state 2) :=
  ⟨by decide, by decide, move_to_head_effect (sample_state 2) [1, 0] 0 (by decide) (by decide)⟩

/-- C13 (well-formedness is preserved).  If the recency list is well formed
and reads `L`, then it is well formed after `dllist_insert_head` of a live
entry outside `L` (reading that entry, then `L`), after `dllist_move_to_head`
of a member (reading that member, then the rest of `L`), and, when `L` has at
least two entries, after `dllist_remove_tail` (reading `L` without its last
element); each of the calls completes. -/
theorem well_formedness_preserved (s : State) (L : List Ptr) (hd : dll s L) :
    (∀ ce, (∃ e, load s.heap ce = some e) → ce ∉ L →
      ∃ s1, dllist_insert_head s ce = some s1 ∧ dll s1 (ce :: L)) ∧
    (∀ ce, ce ∈ L → ∃ s1, dllist_move_to_head s ce = some s1 ∧ dll s1 (ce :: L.erase ce)) ∧
    (2 ≤ L.length → ∃ t s1, dllist_remove_tail s = some (t, s1) ∧ dll s1 L.dropLast) := by
  refine ⟨fun ce hlive hce => ?_, fun ce hce => ?_, fun h2 => ?_⟩
  · obtain ⟨e, hl⟩ := hlive
    obtain ⟨s1, hins, hd1, _⟩ := dllist_insert_head_spec hd hl hce
    exact ⟨s1, hins, hd1⟩
  · obtain ⟨s1, hmv, hd1, _⟩ := dllist_move_to_head_spec hd hce
    exact ⟨s1, hmv, hd1⟩
  · obtain ⟨t, s1, hrem, _, hd1, _⟩ := dllist_remove_tail_spec hd h2
    exact ⟨t, s1, hrem, hd1⟩

/-- Witness for C13: the sample list of two entries. -/
theorem well_formedness_preserved_witness :
    dll (sample_state 2) [1, 0] ∧
    ((∀ ce, (∃ e, load (sample_state 2).heap ce = some e) → ce ∉ [1, 0] →
      ∃ s1, dllist_insert_head (sample_state 2) ce = some s1 ∧ dll s1 (ce :: [1, 0])) ∧
    (∀ ce, ce ∈ [1, 0] →
      ∃ s1, dllist_move_to_head (sample_state 2) ce = some s1 ∧
        dll s1 (ce :: [1, 0].erase ce)) ∧
    (2 ≤ [1, 0].length →
      ∃ t s1, dllist_remove_tail (sample_state 2) = some (t, s1) ∧ dll s1 [1, 0].dropLast)) :=
  ⟨by decide, well_formedness_preserved (sample_state 2) [1, 0] (by decide)⟩

/-- C14 (size bookkeeping).  In every state reached from a freshly created
cache of capacity at least 1 by a sequence of `cache_put` calls, the walk from
`head` along `next` ends at `NULL` and the number of entries it meets equals
`cur_size`. -/
theorem cur_size_counts_list (max_size hashsize : Int) (hcap : 1 ≤ max_size)
    (calls : List put_args) :
    ∃ s n, cache_put_all (fresh max_size hashsize) calls = some s ∧
      list_count s = some n ∧ s.c.cur_size = n := by
  obtain ⟨s, L, hrun, hw, _⟩ :=
    cache_put_all_wf calls (fresh max_size hashsize) []
      (wf_fresh max_size hashsize (by omega)) hcap
  exact ⟨s, L.length, hrun, list_count_of_dll hw.1, hw.2.1⟩

/-- Witness for C14: capacity 2 and the calls for "a", "b", "c". -/
theorem cur_size_counts_list_witness :
    (1 : Int) ≤ 2 ∧
    ∃ s n, cache_put_all (fresh 2 0) [put_a, put_b, put_c] = some s ∧
      list_count s = some n ∧ s.c.cur_size = n :=
  ⟨by decide, cur_size_counts_list 2 0 (by decide) [put_a, put_b, put_c]⟩

/-- C15 (eviction never meets a one-entry list).  After any sequence of
`cache_put` calls on a freshly created cache of capacity at least 1, the next
`cache_put` reaches its test in a well-formed state, and whenever the test
sends it to `dllist_remove_tail` the list holds at least two entries: the old
tail's `prev` is a live entry, not `NULL`, and `dllist_remove_tail` completes.
At capacity 0 the first `cache_put` reaches `dllist_remove_tail` with a list
of one entry whose `prev` is `NULL`, and the call does not complete. -/
theorem eviction_sees_two_entries (max_size hashsize : Int) (hcap : 1 ≤ max_size)
    (calls : List put_args) (a : put_args) :
    (∃ s s3 L3, cache_put_all (fresh max_size hashsize) calls = some s ∧
      cache_put_insert s a.path a.content_type a.content a.content_length = some s3 ∧
      cache_put s a.path a.content_type a.content a.content_length
        = (if s3.c.cur_size > s3.c.max_size then cache_put_evict s3 a.path else some s3) ∧
      dll s3 L3 ∧
      (s3.c.cur_size > s3.c.max_size →
        2 ≤ L3.length ∧
        (∃ t p, s3.c.tail = some t ∧ get_prev s3.heap t = some (some p) ∧ p ≠ t ∧
          ∃ e, load s3.heap p = some e) ∧
        ∃ r, dllist_remove_tail s3 = some r)) ∧
    (∃ s3, cache_put_insert (fresh 0 hashsize) a.path a.content_type a.content
        a.content_length = some s3 ∧
      s3.c.cur_size > s3.c.max_size ∧ dll s3 [0] ∧ s3.c.tail = some 0 ∧
      get_prev s3.heap 0 = some none ∧ dllist_remove_tail s3 = none ∧
      cache_put (fresh 0 hashsize) a.path a.content_type a.content a.content_length
        = none) := by
  constructor
  · obtain ⟨s, L, hrun, hw, hm⟩ :=
      cache_put_all_wf calls (fresh max_size hashsize) []
        (wf_fresh max_size hashsize (by omega)) hcap
    have hm' : s.c.max_size = max_size := hm
    obtain ⟨s3, hins, hd3, hc3, hm3⟩ :=
      cache_put_insert_spec hw.1 a.path a.content_type a.content a.content_length
    refine ⟨s, s3, _, hrun, hins, ?_, hd3, fun hgt => ?_⟩
    · rw [cache_put_eq_insert_evict, hins]; rfl
    · have hlen : 2 ≤ (s.heap.length :: L).length := by
        have h1 : s3.c.cur_size = (L.length : Int) + 1 := by rw [hc3, hw.2.1]
        have h2 : (1 : Int) ≤ s3.c.max_size := by rw [hm3, hm']; exact hcap
        have h3 : (1 : Int) ≤ (L.length : Int) := by omega
        have h4 : 1 ≤ L.length := by exact_mod_cast h3
        simp; omega
      obtain ⟨t, p, ht, _, hp, _, hpt, hlive⟩ := dll_tail_prev hd3 hlen
      obtain ⟨t1, s4, hrem, _⟩ := dllist_remove_tail_spec hd3 hlen
      exact ⟨hlen, ⟨t, p, ht, hp, hpt, hlive⟩, ⟨_, hrem⟩⟩
  · have hw0 : wf (fresh 0 hashsize) [] := wf_fresh 0 hashsize (le_refl _)
    obtain ⟨s3, hins, hd3, hc3, hm3⟩ :=
      cache_put_insert_spec hw0.1 a.path a.content_type a.content a.content_length
    have hd3' : dll s3 [0] := hd3
    obtain ⟨ht, hp, hrem⟩ := dllist_remove_tail_singleton hd3'
    have hgt : s3.c.cur_size > s3.c.max_size := by
      rw [hc3, hm3]; show (0 : Int) + 1 > 0; omega
    refine ⟨s3, hins, hgt, hd3', ht, hp, hrem, ?_⟩
    rw [cache_put_eq_insert_evict, hins]
    simp [hgt, cache_put_evict, hrem]

/-- Witness for C15: capacity 1, the call for "a" made, the call for "b"
next. -/
theorem eviction_sees_two_entries_witness :
    (1 : Int) ≤ 1 ∧
    ∃ s s3 L3, cache_put_all (fresh 1 0) [put_a] = some s ∧
      cache_put_insert s put_b.path put_b.content_type put_b.content put_b.content_length
        = some s3 ∧
      cache_put s put_b.path put_b.content_type put_b.content put_b.content_length
        = (if s3.c.cur_size > s3.c.max_size then cache_put_evict s3 put_b.path
            else some s3) ∧
      dll s3 L3 ∧
      (s3.c.cur_size > s3.c.max_size →
        2 ≤ L3.length ∧
        (∃ t p, s3.c.tail = some t ∧ get_prev s3.heap t = some (some p) ∧ p ≠ t ∧
          ∃ e, load s3.heap p = some e) ∧
        ∃ r, dllist_remove_tail s3 = some r) :=
  ⟨by decide, (eviction_sees_two_entries 1 0 (by decide) [put_a] put_b).1⟩

/-- C16 (frame of `cache_get`).  For a well-formed list `L` and an index whose
records all refer to members of `L`, `cache_get` completes, hit or miss, and
returns what the index holds for the key; `cur_size`, `max_size` and the index
are unchanged; the list afterwards is well formed and a permutation of `L`;
and no cell was added, removed or changed in path, content type, content or
content length. -/
theorem cache_get_frame (s : State) (L : List Ptr) (hd : dll s L)
    (hidx : index_in_list s.c.index L) (path : String) :
    ∃ s1, cache_get s path = some (hashtable_get s.c.index path, s1) ∧
      s1.c.cur_size = s.c.cur_size ∧ s1.c.max_size = s.c.max_size ∧
      s1.c.index = s.c.index ∧
      (∃ L1, dll s1 L1 ∧ L1.Perm L) ∧ same_data s.heap s1.heap := by
  cases hget : hashtable_get s.c.index path with
  | none =>
    exact ⟨s, by simp [cache_get, hget], rfl, rfl, rfl, ⟨L, hd, List.Perm.refl L⟩,
      same_data_refl _⟩
  | some ce =>
    have hmem : ce ∈ L := hashtable_get_mem hidx hget
    obtain ⟨s1, hmv, hd1, hsd, hi, hm, hc⟩ := dllist_move_to_head_spec hd hmem
    exact ⟨s1, by simp [cache_get, hget, hmv], hc, hm, hi,
      ⟨_, hd1, (List.perm_cons_erase hmem).symm⟩, hsd⟩

/-- Witness for C16: a hit on "a" in the sample state. -/
theorem cache_get_frame_witness :
    dll (sample_state 2) [1, 0] ∧ index_in_list (sample_state 2).c.index [1, 0] ∧
    ∃ s1, cache_get (sample_state 2) "a"
        = some (hashtable_get (sample_state 2).c.index "a", s1) ∧
      s1.c.cur_size = (sample_state 2).c.cur_size ∧
      s1.c.max_size = (sample_state 2).c.max_size ∧
      s1.c.index = (sample_state 2).c.index ∧
      (∃ L1, dll s1 L1 ∧ L1.Perm [1, 0]) ∧ same_data (sample_state 2).heap s1.heap :=
  ⟨by decide, by decide, cache_get_frame (sample_state 2) [1, 0] (by decide) (by decide) "a"⟩

end CacheC
